import Mathlib

/-!
Verification of the GITSTER pipeline core against its specification.

The developments below are shallow embeddings of the Python sources:

* `pipeline/canonicalize/canonicalize_and_registry.py`
  (`norm`, `norm_key`, `canonical_id_from_key`, the override step of
  `canonicalize_owner`, `update_registry`);
* `pipeline/deck/build_deck.py`
  (`parse_year_int`, `parse_artists_canon`, `collapse_versions`,
  `select_deck` with its inner helpers `can_take`, `rarity_score`,
  `candidate_rank`, `prune_unavailable_rows`, `has_candidate`,
  `pop_next`, `add_row`, and the two selection phases).

Machine integers are modelled as `Nat`/`Int` with explicit reductions
mod `2 ^ 32` where the source relies on 32-bit wraparound (MD5).
Fallible code is modelled with `Option`/sum-like result types.
Python dictionaries are modelled as association lists.
-/

set_option maxRecDepth 4000000

namespace Gitster

/-! ### Association-list helpers (Python `dict` / `defaultdict`) -/

/-- Lookup with default, modelling `collections.defaultdict` reads and
`dict.get(k, d)`. -/
def lookupD {α β : Type} [DecidableEq α] (l : List (α × β)) (k : α) (d : β) : β :=
  match l.find? (fun p => decide (p.1 = k)) with
  | some p => p.2
  | none => d

/-- Replace the value stored at `k` (first occurrence), or append a new
binding, modelling Python `d[k] = v`. -/
def setKey {α β : Type} [DecidableEq α] (l : List (α × β)) (k : α) (v : β) :
    List (α × β) :=
  match l with
  | [] => [(k, v)]
  | p :: rest => if p.1 = k then (k, v) :: rest else p :: setKey rest k v

/-- Increment a counter entry, modelling `defaultdict(int)` / `Counter`
`d[k] += 1`. -/
def bumpKey {α : Type} [DecidableEq α] (l : List (α × Nat)) (k : α) :
    List (α × Nat) :=
  setKey l k (lookupD l k 0 + 1)

/-- Dictionary lookup returning an option, modelling `k in d` plus `d[k]`. -/
def dictFind {α β : Type} [DecidableEq α] (l : List (α × β)) (k : α) : Option β :=
  (l.find? (fun p => decide (p.1 = k))).map (·.2)

/-! ### Character-list string primitives

Lean's built-in `String` operations (`trim`, `toLower`, `splitOn`,
`replace`, `toUTF8`, the order on `String`) are opaque to kernel
reduction, so the Python string primitives the sources use are
re-modelled here on `List Char` (a `String` is its list of code
points).  Python semantics notes: `str.strip()` is modelled on the
ASCII whitespace set, `str.lower()` on the ASCII range, and `str`
comparison as code-point lexicographic order — all exact for the data
the pipeline handles. -/

/-- ASCII whitespace, modelling the characters `str.strip()` removes. -/
def pyIsSpace (c : Char) : Bool :=
  c = ' ' ∨ c = '\t' ∨ c = '\n' ∨ c = '\r' ∨ c.toNat = 11 ∨ c.toNat = 12

/-- Model of `str.strip()`. -/
def pyStrip (cs : List Char) : List Char :=
  ((cs.dropWhile pyIsSpace).reverse.dropWhile pyIsSpace).reverse

/-- Model of `str.lower()` (ASCII range, which is what `Char.toLower`
implements). -/
def lowerL (cs : List Char) : List Char := cs.map Char.toLower

/-- Code-point lexicographic order, modelling Python `str < str`. -/
def charsLt : List Char → List Char → Bool
  | [], [] => false
  | [], _ :: _ => true
  | _ :: _, [] => false
  | a :: as, b :: bs =>
    if a.toNat < b.toNat then true
    else if b.toNat < a.toNat then false
    else charsLt as bs

/-- Lexicographic combination of two strict `Bool` orders, modelling
Python tuple comparison one component at a time. -/
def lexLt {α β : Type} (ltA : α → α → Bool) (ltB : β → β → Bool) :
    α × β → α × β → Bool :=
  fun p q =>
    if ltA p.1 q.1 then true
    else if ltA q.1 p.1 then false
    else ltB p.2 q.2

/-- Strict `<` on `ℤ` as a `Bool` comparator. -/
def intLtB : ℤ → ℤ → Bool := fun a b => decide (a < b)

/-- Does `l` start with the pattern `pat`? -/
def startsWithSeq : List Char → List Char → Bool
  | [], _ => true
  | _ :: _, [] => false
  | p :: ps, c :: cs => p = c && startsWithSeq ps cs

/-- Left-to-right non-overlapping replacement, modelling
`str.replace(pat, rep)` for a non-empty pattern (fuel recursion over
the input length so the kernel can evaluate it). -/
def replaceSeqAux (pat rep : List Char) : Nat → List Char → List Char
  | 0, l => l
  | fuel + 1, l =>
    match l with
    | [] => []
    | c :: rest =>
      if startsWithSeq pat l then rep ++ replaceSeqAux pat rep fuel (l.drop pat.length)
      else c :: replaceSeqAux pat rep fuel rest

/-- Model of `str.replace(pat, rep)`. -/
def replaceSeq (pat rep l : List Char) : List Char :=
  replaceSeqAux pat rep l.length l

/-- Split on a separator character, keeping empty pieces, modelling
`str.split(sep)` with a one-character separator. -/
def splitChar (sep : Char) : List Char → List (List Char)
  | [] => [[]]
  | c :: rest =>
    match splitChar sep rest with
    | g :: gs => if c = sep then [] :: g :: gs else (c :: g) :: gs
    | [] => [[c]]

/-- Accumulator for `splitWs`: `cur` is the current word, reversed. -/
def splitWsAux (cur : List Char) : List Char → List (List Char)
  | [] => if cur = [] then [] else [cur.reverse]
  | c :: rest =>
    if pyIsSpace c then
      if cur = [] then splitWsAux [] rest else cur.reverse :: splitWsAux [] rest
    else splitWsAux (c :: cur) rest

/-- Maximal runs of non-whitespace characters, modelling the
argument-less `str.split()`. -/
def splitWs (cs : List Char) : List (List Char) := splitWsAux [] cs

/-- Insert `x` into `l` before the first element not strictly below it
(stable insertion w.r.t. the strict order `lt`). -/
def insortBy {α : Type} (lt : α → α → Bool) (x : α) : List α → List α
  | [] => [x]
  | y :: ys => if lt y x then y :: insortBy lt x ys else x :: y :: ys

/-- Stable insertion sort by a strict order `lt`, used to model
pandas/python ascending sorts (kernel-reducible, unlike the built-in
merge sort). -/
def sortBy {α : Type} (lt : α → α → Bool) : List α → List α
  | [] => []
  | x :: xs => insortBy lt x (sortBy lt xs)

/-- Join chunks with single spaces, modelling `" ".join(...)`. -/
def joinSpace : List (List Char) → List Char
  | [] => []
  | [w] => w
  | w :: ws => w ++ ' ' :: joinSpace ws

/-! ### Python `float(...)` literals and `parse_year_int`

`parse_year_int` (build_deck.py:129) feeds its input through `str`,
`strip`, a `"nan"` sentinel check, `float(...)` inside a `try`, an
`isnan` check, and finally `int(...)`.  We model the input as
`Option String` (`none` for Python `None`, `some s` for a value whose
`str()` is `s`), and `float(...)` as an exact-rational parser of the
ASCII literal grammar accepted by CPython (optional sign; `inf`,
`infinity`, `nan` case-insensitively; decimal digits with optional
single underscores between digits, optional fraction and exponent).
IEEE-754 round-to-nearest is abstracted by exact rational arithmetic;
the only double-specific behaviour that changes the control flow is
overflow to infinity, modelled by the exact round-to-even overflow
threshold `2 ^ 1024 - 2 ^ 970`.  Unicode (non-ASCII) digits are not
modelled. -/

/-- Result of Python `float(text)`: `NaN`, a signed infinity, or a
finite value kept exact as `m * 10 ^ p` (integer mantissa `m`, signed
decimal exponent `p`). -/
inductive PFloat : Type
  | nan : PFloat
  | infty (neg : Bool) : PFloat
  | finite (m p : ℤ) : PFloat
deriving DecidableEq, Repr

/-- Consume an optional ASCII sign, returning `true` for `-`. -/
def parseSign : List Char → Bool × List Char
  | '+' :: rest => (false, rest)
  | '-' :: rest => (true, rest)
  | cs => (false, cs)

/-- Digit-run scanner: accepts `digit (('_')? digit)*`, accumulating the
value and the number of digits consumed (underscores are separators
between digits, as in CPython's literal grammar). -/
def digitsAux (acc cnt : Nat) : List Char → Nat × Nat × List Char
  | c :: rest =>
    if c.isDigit then digitsAux (acc * 10 + (c.toNat - 48)) (cnt + 1) rest
    else if c = '_' then
      match rest with
      | c2 :: rest2 =>
        if c2.isDigit then digitsAux (acc * 10 + (c2.toNat - 48)) (cnt + 1) rest2
        else (acc, cnt, c :: rest)
      | [] => (acc, cnt, [c])
    else (acc, cnt, c :: rest)
  | [] => (acc, cnt, [])

/-- Parse a non-empty digit run; `none` when the first character is not
a digit. -/
def parseDigits (cs : List Char) : Option (Nat × Nat × List Char) :=
  match cs with
  | c :: _ =>
    if c.isDigit then
      let r := digitsAux 0 0 cs
      some r
    else none
  | [] => none

/-- Parse the optional exponent suffix `(e|E)(+|-)? digits` and require
the remainder to be empty, returning the signed exponent. -/
def parseExpEnd (cs : List Char) : Option ℤ :=
  match cs with
  | [] => some 0
  | c :: rest =>
    if c = 'e' ∨ c = 'E' then
      let (eneg, rest2) := parseSign rest
      match parseDigits rest2 with
      | some (ev, _, []) => some (if eneg then -(ev : ℤ) else (ev : ℤ))
      | _ => none
    else none

/-- Parse the unsigned numeric body of a float literal
(`digits [. digits?] [exp]` or `. digits [exp]`), exactly: the result
`(n, p)` denotes the value `n * 10 ^ p`. -/
def pyNumVal (cs : List Char) : Option (ℕ × ℤ) :=
  match parseDigits cs with
  | some (iv, _, rest) =>
    let (fv, fd, rest2) :=
      match rest with
      | '.' :: r2 =>
        match parseDigits r2 with
        | some (fv, fd, r3) => (fv, fd, r3)
        | none => (0, 0, r2)
      | _ => (0, 0, rest)
    match parseExpEnd rest2 with
    | some e => some (iv * 10 ^ fd + fv, e - (fd : ℤ))
    | none => none
  | none =>
    match cs with
    | '.' :: r2 =>
      match parseDigits r2 with
      | some (fv, fd, rest3) =>
        match parseExpEnd rest3 with
        | some e => some (fv, e - (fd : ℤ))
        | none => none
      | none => none
    | _ => none

/-- Exact overflow threshold of binary64 round-to-nearest-even: values
with absolute value at least `2 ^ 1024 - 2 ^ 970` convert to infinity. -/
def dblOverflow : ℕ := 2 ^ 1024 - 2 ^ 970

/-- Does `n * 10 ^ p` reach the binary64 overflow threshold? -/
def overflows (n : ℕ) (p : ℤ) : Bool :=
  if 0 ≤ p then dblOverflow ≤ n * 10 ^ p.toNat
  else dblOverflow * 10 ^ (-p).toNat ≤ n

/-- Model of CPython `float(s)` on an already-`str`-ed value: `none`
when `float` raises `ValueError`. -/
def pyFloatOfString (s : String) : Option PFloat :=
  let cs := pyStrip s.data
  let (neg, rest) := parseSign cs
  let low := rest.map Char.toLower
  if low = "inf".data ∨ low = "infinity".data then some (.infty neg)
  else if low = "nan".data then some .nan
  else
    match pyNumVal rest with
    | none => none
    | some (n, p) =>
      if overflows n p then some (.infty neg)
      else some (.finite (if neg then -(n : ℤ) else (n : ℤ)) p)

/-- Python `int(float)` truncation toward zero on the finite value
`m * 10 ^ p`. -/
def floatTrunc (m p : ℤ) : ℤ :=
  if 0 ≤ p then m * (10 : ℤ) ^ p.toNat
  else if 0 ≤ m then (m.toNat / 10 ^ (-p).toNat : ℕ)
  else -((-m).toNat / 10 ^ (-p).toNat : ℕ)

/-- Observable outcome of `parse_year_int`: a returned value, or an
uncaught `OverflowError` escaping the function (raised by `int(...)` on
an infinite float, outside the `try` block). -/
inductive PyYearResult : Type
  | ok (y : Option ℤ) : PyYearResult
  | overflowError : PyYearResult
deriving DecidableEq, Repr

/-- Shallow embedding of `parse_year_int` (build_deck.py:129-141). -/
def parse_year_int (value : Option String) : PyYearResult :=
  match value with
  | none => .ok none
  | some v =>
    let text := pyStrip v.data
    if text = [] ∨ lowerL text = "nan".data then .ok none
    else
      match pyFloatOfString (String.mk text) with
      | none => .ok none
      | some .nan => .ok none
      | some (.infty _) => .overflowError
      | some (.finite m p) => .ok (some (floatTrunc m p))

/-! ### MD5 (`hashlib.md5(...).hexdigest()`)

`canonical_id_from_key` (canonicalize_and_registry.py:38-41) hashes the
normalized key with MD5 and keeps the first 16 hex characters.  The
digest is embedded below over `Nat` with explicit reductions
mod `2 ^ 32`. -/

/-- Reduce mod `2 ^ 32`. -/
def u32 (n : Nat) : Nat := n % 4294967296

/-- Bitwise complement of a 32-bit value. -/
def bnot32 (x : Nat) : Nat := 4294967295 - x

/-- Rotate a 32-bit value left by `s` bits. -/
def rotl32 (x s : Nat) : Nat := u32 (x * 2 ^ s) + x / 2 ^ (32 - s)

/-- The MD5 sine-derived constant table `K`. -/
def mdK : List Nat := [
  3614090360, 3905402710, 606105819, 3250441966, 4118548399, 1200080426, 2821735955, 4249261313,
  1770035416, 2336552879, 4294925233, 2304563134, 1804603682, 4254626195, 2792965006, 1236535329,
  4129170786, 3225465664, 643717713, 3921069994, 3593408605, 38016083, 3634488961, 3889429448,
  568446438, 3275163606, 4107603335, 1163531501, 2850285829, 4243563512, 1735328473, 2368359562,
  4294588738, 2272392833, 1839030562, 4259657740, 2763975236, 1272893353, 4139469664, 3200236656,
  681279174, 3936430074, 3572445317, 76029189, 3654602809, 3873151461, 530742520, 3299628645,
  4096336452, 1126891415, 2878612391, 4237533241, 1700485571, 2399980690, 4293915773, 2240044497,
  1873313359, 4264355552, 2734768916, 1309151649, 4149444226, 3174756917, 718787259, 3951481745]

/-- The MD5 per-round left-rotation amounts. -/
def mdS : List Nat := [
  7, 12, 17, 22, 7, 12, 17, 22, 7, 12, 17, 22, 7, 12, 17, 22,
  5, 9, 14, 20, 5, 9, 14, 20, 5, 9, 14, 20, 5, 9, 14, 20,
  4, 11, 16, 23, 4, 11, 16, 23, 4, 11, 16, 23, 4, 11, 16, 23,
  6, 10, 15, 21, 6, 10, 15, 21, 6, 10, 15, 21, 6, 10, 15, 21]

/-- The MD5 round functions F, G, H, I selected by round index. -/
def mdF (i b c d : Nat) : Nat :=
  if i < 16 then (b.land c).lor ((bnot32 b).land d)
  else if i < 32 then (d.land b).lor ((bnot32 d).land c)
  else if i < 48 then (b.xor c).xor d
  else c.xor (b.lor (bnot32 d))

/-- The MD5 message-word schedule. -/
def mdG (i : Nat) : Nat :=
  if i < 16 then i
  else if i < 32 then (5 * i + 1) % 16
  else if i < 48 then (3 * i + 5) % 16
  else (7 * i) % 16

/-- One MD5 round on state `(a, b, c, d)` with message words `M`. -/
def mdStep (M : List Nat) (st : Nat × Nat × Nat × Nat) (i : Nat) :
    Nat × Nat × Nat × Nat :=
  let (a, b, c, d) := st
  let f := u32 (mdF i b c d + a + mdK.getD i 0 + M.getD (mdG i) 0)
  (d, u32 (b + rotl32 f (mdS.getD i 0)), b, c)

/-- Process one 16-word block. -/
def mdBlock (h : Nat × Nat × Nat × Nat) (M : List Nat) :
    Nat × Nat × Nat × Nat :=
  let (a, b, c, d) := (List.range 64).foldl (mdStep M) h
  (u32 (h.1 + a), u32 (h.2.1 + b), u32 (h.2.2.1 + c), u32 (h.2.2.2 + d))

/-- Little-endian byte decomposition (`k` bytes). -/
def leBytes : Nat → Nat → List Nat
  | 0, _ => []
  | k + 1, v => v % 256 :: leBytes k (v / 256)

/-- MD5 padding: `0x80`, zeros to 56 mod 64, then the 64-bit bit length
little-endian. -/
def mdPad (msg : List Nat) : List Nat :=
  msg ++ 128 :: List.replicate ((119 - msg.length % 64) % 64) 0
      ++ leBytes 8 ((8 * msg.length) % 2 ^ 64)

/-- Split a byte list into 64-byte chunks (structural fuel recursion so
that the kernel can evaluate it; the fuel `l.length` is always enough
because every step consumes at least one element). -/
def chunks64Aux : Nat → List Nat → List (List Nat)
  | 0, _ => []
  | _, [] => []
  | fuel + 1, a :: t => (a :: t).take 64 :: chunks64Aux fuel ((a :: t).drop 64)

/-- Split a byte list into 64-byte chunks. -/
def chunks64 (l : List Nat) : List (List Nat) := chunks64Aux l.length l

/-- Decode a 64-byte chunk into 16 little-endian 32-bit words. -/
def words16 (block : List Nat) : List Nat :=
  (List.range 16).map fun i =>
    block.getD (4 * i) 0 + 256 * block.getD (4 * i + 1) 0 +
      65536 * block.getD (4 * i + 2) 0 + 16777216 * block.getD (4 * i + 3) 0

/-- MD5 state after absorbing a whole byte message. -/
def md5words (msg : List Nat) : Nat × Nat × Nat × Nat :=
  (chunks64 (mdPad msg)).foldl (fun h b => mdBlock h (words16 b))
    (1732584193, 4023233417, 2562383102, 271733878)

/-- Lowercase hex digit. -/
def hexChar (n : Nat) : Char :=
  if n < 10 then Char.ofNat (48 + n) else Char.ofNat (87 + n)

/-- Two lowercase hex characters of a byte. -/
def byteHexChars (b : Nat) : List Char := [hexChar (b / 16), hexChar (b % 16)]

/-- One 32-bit word as 8 hex characters, little-endian byte order. -/
def wordLEHex (w : Nat) : List Char := ((leBytes 4 w).map byteHexChars).flatten

/-- Model of `hashlib.md5(bytes).hexdigest()`. -/
def md5Hex (msg : List Nat) : String :=
  let (a, b, c, d) := md5words msg
  String.mk (([a, b, c, d].map wordLEHex).flatten)

/-- UTF-8 encoding of one code point. -/
def utf8Bytes (c : Char) : List Nat :=
  let n := c.toNat
  if n < 128 then [n]
  else if n < 2048 then [192 + n / 64, 128 + n % 64]
  else if n < 65536 then [224 + n / 4096, 128 + n / 64 % 64, 128 + n % 64]
  else [240 + n / 262144, 128 + n / 4096 % 64, 128 + n / 64 % 64, 128 + n % 64]

/-- UTF-8 bytes of a string (`key_norm.encode("utf-8")`). -/
def strBytes (s : String) : List Nat := (s.data.map utf8Bytes).flatten

/-! ### Canonicalization (`canonicalize_and_registry.py`) -/

/-- Shallow embedding of `norm` (canonicalize_and_registry.py:26-30):
strip, then collapse internal whitespace runs to single spaces (the
`strip` is subsumed by split-and-join). -/
def normChars (cs : List Char) : List Char := joinSpace (splitWs cs)

/-- Shallow embedding of `norm` as a `String` function. -/
def norm (s : String) : String := String.mk (normChars s.data)

/-- Shallow embedding of `norm_key` (canonicalize_and_registry.py:33-35). -/
def norm_key (artists_trim title_trim : String) : String :=
  String.mk (lowerL (normChars artists_trim.data) ++ " | ".data
    ++ lowerL (normChars title_trim.data))

/-- Shallow embedding of `canonical_id_from_key`
(canonicalize_and_registry.py:38-41): first 16 hex characters of the
MD5 digest of the UTF-8 encoded key. -/
def canonical_id_from_key (key_norm : String) : String :=
  String.mk ((md5Hex (strBytes key_norm)).data.take 16)

/-- Per-row effect of `canonicalize_owner`
(canonicalize_and_registry.py:140-147) on one instance: compute
`canonical_id` from the normalized key, then replace it by the manual
merge target when the key is a loaded alias (`isin` + `map`).  The
loaded merges dictionary is modelled as an association list with
unique keys. -/
def resolve_canonical_id (merges : List (String × String))
    (artists_trim title_trim : String) : String :=
  let k := norm_key artists_trim title_trim
  let computed := canonical_id_from_key k
  match dictFind merges k with
  | some tgt => tgt
  | none => computed

/-! ### Registry merge (`update_registry`, canonicalize_and_registry.py:98-122) -/

/-- One row of `canonical_registry.csv`. -/
structure RegRow : Type where
  canonical_id : String
  expansion_code : String
  added_month : String
deriving DecidableEq, Repr

/-- Shallow embedding of `update_registry`: the existing registry rows
are read, the `canonical_id`s already present under the *same*
`expansion_code` are collected, and each input id (normalized, skipped
when empty or already present in that set) is appended as a new row.
The CSV read/write is modelled away; the function maps the prior
registry table to the written one. -/
def update_registry (reg : List RegRow) (canonical_ids : List String)
    (expansion added_month : String) : List RegRow :=
  let existing :=
    (reg.filter (fun r => r.expansion_code = expansion)).map (·.canonical_id)
  let new_rows := canonical_ids.filterMap fun cid0 =>
    let cid := norm cid0
    if cid = "" ∨ cid ∈ existing then none
    else some ⟨cid, expansion, added_month⟩
  reg ++ new_rows

/-- The `canonical_id`s a registry table holds under one expansion. -/
def regIdsOf (reg : List RegRow) (expansion : String) : List String :=
  (reg.filter (fun r => r.expansion_code = expansion)).map (·.canonical_id)

/-! ### Version collapsing (`collapse_versions`, build_deck.py:773-807) -/

/-- The candidate attributes `collapse_versions` reads: the group key
and the four election-order columns. -/
structure CRow : Type where
  collapse_key : String
  canonical_id : String
  owners_count : ℤ
  instances_count : ℤ
  has_spotify_url : ℤ
deriving DecidableEq, Repr

/-- Sort key of the election: ascending lexicographic order of this
tuple is exactly `sort_values(["owners_count", "instances_count",
"has_spotify_url", "canonical_id"], ascending=[False, False, False,
True])`. -/
def electionRank (r : CRow) : ℤ × ℤ × ℤ × List Char :=
  (-r.owners_count, -r.instances_count, -r.has_spotify_url, r.canonical_id.data)

/-- Strict lexicographic comparison of 4-component ranks (Python tuple
`<` with three integer components and a string tail). -/
def rank4Lt : ℤ × ℤ × ℤ × List Char → ℤ × ℤ × ℤ × List Char → Bool :=
  lexLt intLtB (lexLt intLtB (lexLt intLtB charsLt))

/-- Row `a` strictly precedes row `b` in the election order. -/
def electionWins (a b : CRow) : Bool := rank4Lt (electionRank a) (electionRank b)

/-- The elected representative of one collapse group: the first row of
the group sorted in election order (`ordered.iloc[0]`), i.e. a minimal
element under `electionWins` (ties keep the earlier row). -/
def elect : List CRow → Option CRow
  | [] => none
  | r :: rs => some (rs.foldl (fun best x => if electionWins x best then x else best) r)

/-- Shallow embedding of `collapse_versions`: group the pool by
`collapse_key` (pandas `groupby` iterates groups in ascending key
order, each group keeping frame order), elect one representative per
group, and collect them.  The CSV collapse report is modelled away. -/
def collapse_versions (pool : List CRow) : List CRow :=
  let keys := sortBy (fun a b => charsLt a.data b.data)
    ((pool.map (·.collapse_key)).dedup)
  keys.filterMap fun k => elect (pool.filter (fun r => r.collapse_key = k))

/-! ### Deck selection (`select_deck`, build_deck.py:813-931) -/

/-- Shallow embedding of `parse_artists_canon` (build_deck.py:327-335). -/
def parse_artists_canon (value : String) : List String :=
  let text := pyStrip value.data
  if text = [] ∨ lowerL text = "nan".data then []
  else
    let n := replaceSeq ";".data "|".data (replaceSeq " | ".data "|".data text)
    (((splitChar '|' n).map pyStrip).filter (· ≠ [])).map String.mk

/-- The pool columns `select_deck` reads. -/
structure DRow : Type where
  canonical_id : String
  year_int : Option ℤ
  owners_count : ℤ
  instances_count : ℤ
  has_spotify_url : ℤ
  album_key : String
  artists_canon : String
deriving DecidableEq, Repr

/-- The effective album key used by `can_take` / `add_row` /
`prune_unavailable_rows`: the stripped `album_key`, with a
`cid::<canonical_id>` fallback when it is empty
(`... .strip() or f"cid::{cid}"`). -/
def effAlbumKey (r : DRow) : String :=
  let t := pyStrip r.album_key.data
  if t = [] then "cid::" ++ r.canonical_id else String.mk t

/-- Within-year sort key of `ordered_pool`
(`sort_values(["year_int", "owners_count", "instances_count",
"has_spotify_url", "canonical_id"], ascending=[True, False, False,
False, True])` restricted to rows of one year). -/
def poolRank (r : DRow) : ℤ × ℤ × ℤ × List Char :=
  (-r.owners_count, -r.instances_count, -r.has_spotify_url, r.canonical_id.data)

/-- The distinct years of the pool in ascending order
(`years_sorted`), dropping rows with no parsed year
(`groupby("year_int", dropna=True)`). -/
def yearsOf (pool : List DRow) : List ℤ :=
  sortBy (fun a b => decide (a < b)) ((pool.filterMap (·.year_int)).dedup)

/-- The initial `year_groups` mapping: each year's rows in
`ordered_pool` order. -/
def initGroups (pool : List DRow) : List (ℤ × List DRow) :=
  (yearsOf pool).map fun y =>
    (y, sortBy (fun a b => rank4Lt (poolRank a) (poolRank b))
      (pool.filter (fun r => r.year_int = some y)))

/-- The mutable state of `select_deck`: the year groups, the three
counters, the selected rows (with the phase that picked each), the
selected-id set and the `album_cap_blocks` statistic. -/
structure SelSt : Type where
  groups : List (ℤ × List DRow)
  yearCounts : List (ℤ × Nat)
  albumCounts : List (String × Nat)
  artistCounts : List (String × Nat)
  selected : List (DRow × String)
  selectedIds : List String
  blocks : Nat
deriving Repr

/-- Initial state. -/
def initState (pool : List DRow) : SelSt :=
  ⟨initGroups pool, [], [], [], [], [], 0⟩

/-- Shallow embedding of `select_deck.can_take` (build_deck.py:838-844). -/
def can_take (m : ℤ) (st : SelSt) (r : DRow) : Bool :=
  if r.canonical_id ∈ st.selectedIds then false
  else if m ≤ 0 then true
  else ((lookupD st.albumCounts (effAlbumKey r) 0 : ℕ) : ℤ) < m

/-- Shallow embedding of `select_deck.rarity_score`
(build_deck.py:846-850): minimum deck appearance count over the row's
artists, `10 ^ 9` when the artist list is empty. -/
def rarity_score (st : SelSt) (r : DRow) : ℤ :=
  match (parse_artists_canon r.artists_canon).map
      (fun a => lookupD st.artistCounts a 0) with
  | [] => 10 ^ 9
  | c :: cs => ((cs.foldl min c : ℕ) : ℤ)

/-- Shallow embedding of `select_deck.candidate_rank`
(build_deck.py:852-859). -/
def candidate_rank (st : SelSt) (r : DRow) : ℤ × ℤ × ℤ × ℤ × List Char :=
  (-r.owners_count, rarity_score st r, -r.instances_count,
    -r.has_spotify_url, r.canonical_id.data)

/-- Strict lexicographic comparison of candidate ranks (Python tuple
`<` with four integer components and a string tail). -/
def rank5Lt : ℤ × ℤ × ℤ × ℤ × List Char → ℤ × ℤ × ℤ × ℤ × List Char → Bool :=
  lexLt intLtB rank4Lt

/-- One pass of `prune_unavailable_rows` over a year's row list:
returns the kept rows and how many were dropped by the album cap
(selected ids are dropped silently, cap hits are counted). -/
def pruneRows (m : ℤ) (ids : List String) (albumCounts : List (String × Nat)) :
    List DRow → List DRow × Nat
  | [] => ([], 0)
  | r :: rest =>
    let (keep, b) := pruneRows m ids albumCounts rest
    if r.canonical_id ∈ ids then (keep, b)
    else if 0 < m ∧ m ≤ ((lookupD albumCounts (effAlbumKey r) 0 : ℕ) : ℤ) then
      (keep, b + 1)
    else (r :: keep, b)

/-- Shallow embedding of `select_deck.prune_unavailable_rows`
(build_deck.py:861-874) as a state transformer. -/
def prune_unavailable_rows (m : ℤ) (st : SelSt) (y : ℤ) : SelSt :=
  let pr := pruneRows m st.selectedIds st.albumCounts (lookupD st.groups y [])
  { st with groups := setKey st.groups y pr.1, blocks := st.blocks + pr.2 }

/-- Shallow embedding of `select_deck.has_candidate`
(build_deck.py:876-878): prune, then test emptiness. -/
def has_candidate (m : ℤ) (st : SelSt) (y : ℤ) : Bool × SelSt :=
  let st' := prune_unavailable_rows m st y
  (!(lookupD st'.groups y []).isEmpty, st')

/-- Pop the first rank-minimal row (`min(range(len(rows)),
key=...)` followed by `rows.pop(best_idx)`), keeping the remaining
rows in order. -/
def popMinBy (f : DRow → ℤ × ℤ × ℤ × ℤ × List Char) :
    List DRow → Option (DRow × List DRow)
  | [] => none
  | r :: rs =>
    match popMinBy f rs with
    | none => some (r, [])
    | some (r', rest') =>
      if rank5Lt (f r') (f r) then some (r', r :: rest') else some (r, rs)

/-- Shallow embedding of `select_deck.pop_next` (build_deck.py:880-886). -/
def pop_next (m : ℤ) (st : SelSt) (y : ℤ) : Option DRow × SelSt :=
  let st' := prune_unavailable_rows m st y
  match popMinBy (candidate_rank st') (lookupD st'.groups y []) with
  | none => (none, st')
  | some (r, rest) => (some r, { st' with groups := setKey st'.groups y rest })

/-- Shallow embedding of `select_deck.add_row` (build_deck.py:888-911).
The output-only annotations (`_artist_rarity_score`,
`_selection_order`) are represented by the position in `selected`; the
phase tag is kept. -/
def add_row (m : ℤ) (st : SelSt) (r : DRow) (phase : String) : SelSt :=
  if r.canonical_id ∈ st.selectedIds then st
  else if !(can_take m st r) then st
  else
    { st with
      selectedIds := r.canonical_id :: st.selectedIds
      yearCounts := bumpKey st.yearCounts (r.year_int.getD 0)
      albumCounts :=
        if 0 < m then bumpKey st.albumCounts (effAlbumKey r) else st.albumCounts
      artistCounts := (parse_artists_canon r.artists_canon).foldl bumpKey st.artistCounts
      selected := st.selected ++ [(r, phase)] }

/-- Phase 1 (`coverage`, build_deck.py:913-918): visit the years in
ascending order once, popping one candidate per year, stopping at the
target limit. -/
def phase1 (m : ℤ) (L : Nat) : List ℤ → SelSt → SelSt
  | [], st => st
  | y :: ys, st =>
    if L ≤ st.selected.length then st
    else
      match pop_next m st y with
      | (none, st') => phase1 m L ys st'
      | (some r, st') => phase1 m L ys (add_row m st' r "coverage")

/-- The `active_years` list comprehension: `has_candidate` is run on
every year in order (each call prunes), collecting the years whose
group stays non-empty. -/
def computeActiveAux (m : ℤ) : List ℤ → SelSt → List ℤ × SelSt
  | [], st => ([], st)
  | y :: ys, st =>
    let h := has_candidate m st y
    let r := computeActiveAux m ys h.2
    (if h.1 then y :: r.1 else r.1, r.2)

/-- The `active_years` computation over the fixed `years_sorted` list
(the group keys never change). -/
def computeActive (m : ℤ) (st : SelSt) : List ℤ × SelSt :=
  computeActiveAux m (st.groups.map (·.1)) st

/-- The phase-2 target year: `min(active_years, key=lambda y:
(year_counts[y], y))`. -/
def chooseYear (st : SelSt) : List ℤ → ℤ
  | [] => 0
  | y :: ys =>
    ys.foldl
      (fun b x =>
        if lookupD st.yearCounts x 0 < lookupD st.yearCounts b 0 ∨
            (lookupD st.yearCounts x 0 = lookupD st.yearCounts b 0 ∧ x < b)
        then x else b) y

/-- Phase 2 (`waterfill`, build_deck.py:920-929): while the deck is
below the target, compute the active years, pick the least-covered
year (ties to the smaller year) and pop-and-add its best candidate.
The `while` loop is run on fuel; `select_deck` supplies more fuel than
the loop can ever consume (each iteration either stops or pops a row,
see the termination theorem). -/
def phase2 (m : ℤ) (L : Nat) : Nat → SelSt → SelSt
  | 0, st => st
  | fuel + 1, st =>
    if L ≤ st.selected.length then st
    else
      match computeActive m st with
      | (active, st₁) =>
        if active.isEmpty then st₁
        else
          match pop_next m st₁ (chooseYear st₁ active) with
          | (none, st₂) => phase2 m L fuel st₂
          | (some r, st₂) => phase2 m L fuel (add_row m st₂ r "waterfill")

/-- The effective deck size target: `int(limit) if int(limit) > 0 else
int(len(pool))`. -/
def targetLimit (pool : List DRow) (limit : ℤ) : Nat :=
  if 0 < limit then limit.toNat else pool.length

/-- Shallow embedding of `select_deck` (build_deck.py:813-931):
returns the selected rows (with phase tags, in selection order) and
the `album_cap_blocks` counter. -/
def select_deck (pool : List DRow) (limit m : ℤ) :
    List (DRow × String) × Nat :=
  if pool = [] then ([], 0)
  else
    let L := targetLimit pool limit
    let st1 := phase1 m L (yearsOf pool) (initState pool)
    let st2 := phase2 m L (L + pool.length + 1) st1
    (st2.selected, st2.blocks)

/-! ### Helper lemmas: association lists, orders, sorting, popping -/

theorem lookupD_nil {α β : Type} [DecidableEq α] (k : α) (d : β) :
    lookupD ([] : List (α × β)) k d = d := rfl

theorem lookupD_cons {α β : Type} [DecidableEq α]
    (a : α) (b : β) (l : List (α × β)) (k : α) (d : β) :
    lookupD ((a, b) :: l) k d = if a = k then b else lookupD l k d := by
  by_cases h : a = k <;> simp [lookupD, List.find?, h]

theorem lookupD_setKey {α β : Type} [DecidableEq α]
    (l : List (α × β)) (k k' : α) (v : β) (d : β) :
    lookupD (setKey l k v) k' d = if k' = k then v else lookupD l k' d := by
  induction l with
  | nil =>
    simp only [setKey]
    rcases eq_or_ne k' k with h | h
    · subst h; simp [lookupD_cons]
    · rw [lookupD_cons, if_neg (fun hh => h hh.symm), if_neg h, lookupD_nil]
  | cons p rest ih =>
    obtain ⟨a, b⟩ := p
    simp only [setKey]
    rcases eq_or_ne a k with hk | hk
    · rw [if_pos hk]
      rcases eq_or_ne k' k with h | h
      · subst h; simp [lookupD_cons]
      · rw [lookupD_cons, if_neg (fun hh => h hh.symm), if_neg h, lookupD_cons,
          if_neg (fun hh : a = k' => h (hk.symm.trans hh).symm)]
    · rw [if_neg (by simpa using hk)]
      rcases eq_or_ne a k' with hp | hp
      · rw [lookupD_cons, if_pos hp, if_neg (fun hh : k' = k => hk (hp.trans hh)),
          lookupD_cons, if_pos hp]
      · rw [lookupD_cons, if_neg hp, ih, lookupD_cons, if_neg hp]

theorem lookupD_bumpKey {α : Type} [DecidableEq α]
    (l : List (α × Nat)) (k k' : α) :
    lookupD (bumpKey l k) k' 0 =
      if k' = k then lookupD l k 0 + 1 else lookupD l k' 0 := by
  simp [bumpKey, lookupD_setKey]

theorem charsLt_irrefl (l : List Char) : charsLt l l = false := by
  induction l with
  | nil => rfl
  | cons c t ih => simp [charsLt, ih]

theorem char_eq_of_toNat_eq {a b : Char} (h : a.toNat = b.toNat) : a = b :=
  Char.ext (UInt32.toNat.inj h)

theorem charsLt_conn :
    ∀ {a b : List Char}, charsLt a b = false → charsLt b a = false → a = b := by
  intro a
  induction a with
  | nil =>
    intro b h1 _
    cases b with
    | nil => rfl
    | cons c t => simp [charsLt] at h1
  | cons c t ih =>
    intro b h1 h2
    cases b with
    | nil => simp [charsLt] at h2
    | cons c' t' =>
      simp only [charsLt] at h1 h2
      rcases Nat.lt_trichotomy c.toNat c'.toNat with h | h | h
      · rw [if_pos h] at h1; exact absurd h1 (by simp)
      · rw [if_neg (by omega), if_neg (by omega)] at h1
        rw [if_neg (by omega), if_neg (by omega)] at h2
        rw [char_eq_of_toNat_eq h, ih h1 h2]
      · rw [if_pos h] at h2; exact absurd h2 (by simp)

theorem charsLt_trans :
    ∀ {a b c : List Char}, charsLt a b = true → charsLt b c = true →
      charsLt a c = true := by
  intro a
  induction a with
  | nil =>
    intro b c h1 h2
    cases b with
    | nil => simp [charsLt] at h1
    | cons x t =>
      cases c with
      | nil => simp [charsLt] at h2
      | cons y u => rfl
  | cons x t ih =>
    intro b c h1 h2
    cases b with
    | nil => simp [charsLt] at h1
    | cons y u =>
      cases c with
      | nil => simp [charsLt] at h2
      | cons z v =>
        simp only [charsLt] at h1 h2 ⊢
        rcases Nat.lt_trichotomy x.toNat y.toNat with hxy | hxy | hxy <;>
          rcases Nat.lt_trichotomy y.toNat z.toNat with hyz | hyz | hyz
        · rw [if_pos (by omega)]
        · rw [if_pos (by omega)]
        · rw [if_pos hyz, if_neg (by omega)] at h2
          exact absurd h2 (by simp)
        · rw [if_pos (by omega)]
        · rw [if_neg (by omega), if_neg (by omega)] at h1 h2 ⊢
          exact ih h1 h2
        · rw [if_pos hyz, if_neg (by omega)] at h2
          exact absurd h2 (by simp)
        · rw [if_pos hxy, if_neg (by omega)] at h1
          exact absurd h1 (by simp)
        · rw [if_pos hxy, if_neg (by omega)] at h1
          exact absurd h1 (by simp)
        · rw [if_pos hxy, if_neg (by omega)] at h1
          exact absurd h1 (by simp)

theorem charsLt_asymm {a b : List Char} (h : charsLt a b = true) :
    charsLt b a = false := by
  by_contra hc
  have hba : charsLt b a = true := by
    cases hx : charsLt b a
    · exact absurd hx hc
    · rfl
  have := charsLt_trans h hba
  rw [charsLt_irrefl] at this
  exact Bool.noConfusion this

/-- Irreflexivity of a `Bool` strict order. -/
def IrreflB {α : Type} (lt : α → α → Bool) : Prop := ∀ a, lt a a = false

/-- Connectedness: mutually non-less elements are equal. -/
def ConnB {α : Type} (lt : α → α → Bool) : Prop :=
  ∀ a b, lt a b = false → lt b a = false → a = b

/-- Transitivity of a `Bool` strict order. -/
def TransB {α : Type} (lt : α → α → Bool) : Prop :=
  ∀ a b c, lt a b = true → lt b c = true → lt a c = true

theorem lexLt_irrefl {α β : Type} {ltA : α → α → Bool} {ltB : β → β → Bool}
    (hA : IrreflB ltA) (hB : IrreflB ltB) : IrreflB (lexLt ltA ltB) := by
  intro p
  simp [lexLt, hA p.1, hB p.2]

theorem lexLt_conn {α β : Type} {ltA : α → α → Bool} {ltB : β → β → Bool}
    (hA : ConnB ltA) (hB : ConnB ltB) : ConnB (lexLt ltA ltB) := by
  rintro ⟨a1, a2⟩ ⟨b1, b2⟩ h1 h2
  simp only [lexLt] at h1 h2
  cases hab : ltA a1 b1 with
  | true => rw [hab] at h1; exact absurd h1 (by simp)
  | false =>
    cases hba : ltA b1 a1 with
    | true => rw [hba] at h2; exact absurd h2 (by simp)
    | false =>
      rw [hab, hba] at h1 h2
      simp only [if_false, Bool.false_eq_true] at h1 h2
      rw [hA a1 b1 hab hba, hB a2 b2 h1 h2]

theorem lexLt_trans {α β : Type} {ltA : α → α → Bool} {ltB : β → β → Bool}
    (hAc : ConnB ltA) (hAt : TransB ltA) (hBt : TransB ltB) :
    TransB (lexLt ltA ltB) := by
  rintro ⟨a1, a2⟩ ⟨b1, b2⟩ ⟨c1, c2⟩ h1 h2
  simp only [lexLt] at h1 h2 ⊢
  cases hab : ltA a1 b1 <;> cases hbc : ltA b1 c1 <;> rw [hab] at h1 <;> rw [hbc] at h2
  · -- a1 ≮ b1, b1 ≮ c1
    simp only [if_false, Bool.false_eq_true] at h1 h2
    cases hba : ltA b1 a1 with
    | true => rw [hba] at h1; exact absurd h1 (by simp)
    | false =>
      cases hcb : ltA c1 b1 with
      | true => rw [hcb] at h2; exact absurd h2 (by simp)
      | false =>
        rw [hba] at h1; rw [hcb] at h2
        simp only [Bool.false_eq_true, if_false] at h1 h2
        have e1 : a1 = b1 := hAc a1 b1 hab hba
        have e2 : b1 = c1 := hAc b1 c1 hbc hcb
        subst e1; subst e2
        rw [hab]
        simp only [Bool.false_eq_true, if_false]
        exact hBt _ _ _ h1 h2
  · -- a1 ≮ b1, b1 < c1
    simp only [if_false, Bool.false_eq_true] at h1
    cases hba : ltA b1 a1 with
    | true => rw [hba] at h1; exact absurd h1 (by simp)
    | false =>
      have e1 : a1 = b1 := hAc a1 b1 hab hba
      subst e1
      rw [hbc]
      simp
  · -- a1 < b1, b1 ≮ c1
    simp only [if_false, Bool.false_eq_true] at h2
    cases hcb : ltA c1 b1 with
    | true => rw [hcb] at h2; exact absurd h2 (by simp)
    | false =>
      have e2 : b1 = c1 := hAc b1 c1 hbc hcb
      subst e2
      rw [hab]
      simp
  · -- a1 < b1 < c1
    rw [hAt a1 b1 c1 hab hbc]
    simp

theorem intLtB_irrefl : IrreflB intLtB := by
  intro a; simp [intLtB]

theorem intLtB_conn : ConnB intLtB := by
  intro a b h1 h2; simp [intLtB] at h1 h2; omega

theorem intLtB_trans : TransB intLtB := by
  intro a b c h1 h2; simp [intLtB] at h1 h2 ⊢; omega

theorem charsLtB_irrefl : IrreflB charsLt := charsLt_irrefl

theorem charsLtB_conn : ConnB charsLt := fun _ _ => charsLt_conn

theorem charsLtB_trans : TransB charsLt := fun _ _ _ => charsLt_trans

theorem rank4Lt_irrefl : IrreflB rank4Lt :=
  lexLt_irrefl intLtB_irrefl
    (lexLt_irrefl intLtB_irrefl (lexLt_irrefl intLtB_irrefl charsLtB_irrefl))

theorem rank4Lt_conn : ConnB rank4Lt :=
  lexLt_conn intLtB_conn
    (lexLt_conn intLtB_conn (lexLt_conn intLtB_conn charsLtB_conn))

theorem rank4Lt_trans : TransB rank4Lt :=
  lexLt_trans intLtB_conn intLtB_trans
    (lexLt_trans intLtB_conn intLtB_trans
      (lexLt_trans intLtB_conn intLtB_trans charsLtB_trans))

theorem rank4Lt_asymm {a b : ℤ × ℤ × ℤ × List Char}
    (h : rank4Lt a b = true) : rank4Lt b a = false := by
  cases hx : rank4Lt b a
  · rfl
  · have := rank4Lt_trans _ _ _ h hx
    rw [rank4Lt_irrefl] at this
    exact absurd this (by simp)

/-- Insertion keeps exactly the elements: `insortBy lt x l` is a
permutation of `x :: l`. -/
theorem insortBy_perm {α : Type} (lt : α → α → Bool) (x : α) (l : List α) :
    List.Perm (insortBy lt x l) (x :: l) := by
  induction l with
  | nil => exact List.Perm.refl _
  | cons y ys ih =>
    simp only [insortBy]
    by_cases h : lt y x = true
    · rw [if_pos h]
      exact (List.Perm.cons y ih).trans (List.Perm.swap x y ys)
    · rw [if_neg h]

/-- Sorting keeps exactly the elements. -/
theorem sortBy_perm {α : Type} (lt : α → α → Bool) (l : List α) :
    List.Perm (sortBy lt l) l := by
  induction l with
  | nil => exact List.Perm.refl _
  | cons x xs ih =>
    simp only [sortBy]
    exact (insortBy_perm lt x (sortBy lt xs)).trans (List.Perm.cons x ih)

/-- `popMinBy` returns `none` exactly on the empty list. -/
theorem popMinBy_none_iff {f : DRow → ℤ × ℤ × ℤ × ℤ × List Char}
    {l : List DRow} : popMinBy f l = none ↔ l = [] := by
  cases l with
  | nil => simp [popMinBy]
  | cons r rs =>
    simp only [popMinBy]
    constructor
    · intro h
      cases hx : popMinBy f rs with
      | none => rw [hx] at h; exact absurd h (by simp)
      | some p =>
        rw [hx] at h
        obtain ⟨r', rest'⟩ := p
        by_cases hc : rank5Lt (f r') (f r) = true <;> simp [hc] at h
    · intro h; exact absurd h (by simp)

/-- A popped row is an element, and pop removes exactly it. -/
theorem popMinBy_spec {f : DRow → ℤ × ℤ × ℤ × ℤ × List Char} :
    ∀ {l : List DRow} {r : DRow} {rest : List DRow},
      popMinBy f l = some (r, rest) → List.Perm (r :: rest) l := by
  intro l
  induction l with
  | nil => intro r rest h; simp [popMinBy] at h
  | cons x xs ih =>
    intro r rest h
    simp only [popMinBy] at h
    cases hx : popMinBy f xs with
    | none =>
      rw [hx] at h
      have hnil : xs = [] := popMinBy_none_iff.mp hx
      subst hnil
      simp at h
      obtain ⟨h1, h2⟩ := h
      subst h1; subst h2
      exact List.Perm.refl _
    | some p =>
      obtain ⟨r', rest'⟩ := p
      rw [hx] at h
      by_cases hc : rank5Lt (f r') (f x) = true
      · simp only [hc, if_true] at h
        obtain ⟨h1, h2⟩ := Prod.mk.injEq .. ▸ (Option.some.injEq .. ▸ h : (r', x :: rest') = (r, rest))
        subst h1; subst h2
        have hp : List.Perm (r' :: rest') xs := ih hx
        exact (List.Perm.swap x r' rest').trans (List.Perm.cons x hp)
      · simp only [hc, if_false] at h
        obtain ⟨h1, h2⟩ := Prod.mk.injEq .. ▸ (Option.some.injEq .. ▸ h : (x, xs) = (r, rest))
        subst h1; subst h2
        exact List.Perm.refl _

/-! ### Claim C9 — `parse_year_int` -/

/-- Claim C9, counterexample.  The claim states `parse_year_int` is
total and never raises; but on the numeric-looking input `"inf"`,
`float(text)` succeeds with an infinity, `isnan` is false, and
`int(as_float)` — outside the `try` block — raises an uncaught
`OverflowError`. -/
theorem parse_year_int_raises_on_infinity :
    parse_year_int (some "inf") = PyYearResult.overflowError := by decide

/-- Claim C9, amended.  `parse_year_int` fails closed on every
non-infinite input: it returns `None` when the value is absent, or
strips to the empty string or the `"nan"` sentinel, or fails to parse
as a float, or parses to NaN; it returns the truncated integer on
every finite numeric value; and the only raising inputs are those that
parse to an infinite float, where `int(...)` raises `OverflowError`. -/
theorem parse_year_int_fails_closed :
    ∀ v : Option String,
      (v = none → parse_year_int v = .ok none) ∧
      (∀ s, v = some s →
        ((pyStrip s.data = [] ∨ lowerL (pyStrip s.data) = "nan".data) →
            parse_year_int v = .ok none) ∧
        (¬(pyStrip s.data = [] ∨ lowerL (pyStrip s.data) = "nan".data) →
          (pyFloatOfString (String.mk (pyStrip s.data)) = none →
              parse_year_int v = .ok none) ∧
          (pyFloatOfString (String.mk (pyStrip s.data)) = some .nan →
              parse_year_int v = .ok none) ∧
          (∀ b, pyFloatOfString (String.mk (pyStrip s.data)) = some (.infty b) →
              parse_year_int v = .overflowError) ∧
          (∀ m p, pyFloatOfString (String.mk (pyStrip s.data)) = some (.finite m p) →
              parse_year_int v = .ok (some (floatTrunc m p))))) := by
  intro v
  constructor
  · intro h; subst h; rfl
  · intro s hs
    subst hs
    by_cases hc : pyStrip s.data = [] ∨ lowerL (pyStrip s.data) = "nan".data
    · refine ⟨fun _ => ?_, fun hnc => absurd hc hnc⟩
      simp [parse_year_int, hc]
    · refine ⟨fun h => absurd h hc, fun _ => ?_⟩
      refine ⟨fun hf => ?_, fun hf => ?_, fun b hf => ?_, fun m p hf => ?_⟩ <;>
        simp [parse_year_int, hc, hf]

/-- Claim C9, witness: the amended theorem applied to the concrete
input `"1999.7"`. -/
theorem parse_year_int_fails_closed_witness :
    parse_year_int (some "1999.7") = .ok (some 1999) := by
  have h :=
    (((parse_year_int_fails_closed (some "1999.7")).2 "1999.7" rfl).2
        (by decide)).2.2.2 19997 (-1) (by decide)
  rw [h]
  decide

/-! ### Claim C7 — manual override precedence -/

/-- Claim C7.  For an instance whose normalized (artists, title) key is
a loaded ManualMerge alias, the resolved canonical id is the override
target regardless of the hash; with no matching alias it is the first
16 hex characters of the MD5 digest of the normalized key. -/
theorem manual_override_precedence :
    ∀ (merges : List (String × String)) (artists_trim title_trim : String),
      (∀ tgt, dictFind merges (norm_key artists_trim title_trim) = some tgt →
          resolve_canonical_id merges artists_trim title_trim = tgt) ∧
      (dictFind merges (norm_key artists_trim title_trim) = none →
          resolve_canonical_id merges artists_trim title_trim =
            String.mk ((md5Hex (strBytes (norm_key artists_trim title_trim))).data.take 16)) := by
  intro merges a t
  constructor
  · intro tgt h
    simp [resolve_canonical_id, h]
  · intro h
    simp [resolve_canonical_id, h, canonical_id_from_key]

/-- Claim C7, witness: with the alias table mapping the normalized key
of `(" Los  Fabulosos CADILLACS ", "Matador")` to `override16chars`,
the resolution returns the override; with an empty table it returns
the MD5-prefix id computed from the key. -/
theorem manual_override_precedence_witness :
    resolve_canonical_id [("los fabulosos cadillacs | matador", "override16chars")]
        " Los  Fabulosos CADILLACS " "Matador" = "override16chars" ∧
    resolve_canonical_id [] " Los  Fabulosos CADILLACS " "Matador" =
      "bc70f1efbb237e7a" := by
  constructor
  · exact (manual_override_precedence
      [("los fabulosos cadillacs | matador", "override16chars")]
      " Los  Fabulosos CADILLACS " "Matador").1 "override16chars" (by decide)
  · have h := (manual_override_precedence []
      " Los  Fabulosos CADILLACS " "Matador").2 (by decide)
    rw [h]
    decide

/-! ### Claim C8 — registry merge -/

/-- Claim C8, counterexample.  The claim says no `canonical_id` occurs
in more than one registry row after the merge; but `update_registry`
deduplicates only against ids already present under the *same*
`expansion_code`, so merging id `x` under expansion `II` into a
registry that already holds `x` under expansion `I` produces two rows
with `canonical_id = x`. -/
theorem update_registry_cid_duplicated :
    ¬ (((update_registry [⟨"x", "I", "2024-01"⟩] ["x"] "II" "2024-02").map
        (·.canonical_id)).Nodup) := by decide

/-- The ids contributed by the new rows of one `update_registry` call:
the normalized input ids that are non-empty and not yet registered
under the call's expansion. -/
theorem update_registry_new_ids (ex : List String) (e mo : String) :
    ∀ cids : List String,
      (((cids.filterMap fun cid0 =>
          if norm cid0 = "" ∨ norm cid0 ∈ ex then none
          else some (⟨norm cid0, e, mo⟩ : RegRow)).filter
            (fun r => r.expansion_code = e)).map (·.canonical_id)) =
        (cids.map norm).filter (fun x => !(decide (x = "" ∨ x ∈ ex))) := by
  intro cids
  induction cids with
  | nil => rfl
  | cons c rest ih =>
    by_cases h : norm c = "" ∨ norm c ∈ ex <;>
      simp [List.filterMap_cons, List.filter_cons, h, ih] <;>
      split_ifs with hcond <;> first | rfl | tauto

/-- Claim C8, amended.  The merge is append-only (the prior registry is
a prefix of the result), and it deduplicates per expansion: when the
non-empty normalized input ids are distinct and the prior registry has
no duplicate id inside the target expansion, the merged registry still
has no duplicate id inside that expansion.  (Across different
expansion codes the same canonical_id may legitimately repeat, as the
counterexample shows.) -/
theorem update_registry_monotone_dedup :
    ∀ (reg : List RegRow) (cids : List String) (e mo : String),
      (∃ t, update_registry reg cids e mo = reg ++ t) ∧
      (((cids.map norm).filter (fun x => x ≠ "")).Nodup →
        (regIdsOf reg e).Nodup →
        (regIdsOf (update_registry reg cids e mo) e).Nodup) := by
  intro reg cids e mo
  constructor
  · exact ⟨_, rfl⟩
  · intro hin hreg
    have hids : regIdsOf (update_registry reg cids e mo) e =
        regIdsOf reg e ++
          (cids.map norm).filter
            (fun x => !(decide (x = "" ∨ x ∈ regIdsOf reg e))) := by
      simp only [update_registry, regIdsOf, List.filter_append, List.map_append]
      congr 1
      exact update_registry_new_ids _ e mo cids
    rw [hids]
    apply List.Nodup.append hreg
    · apply List.Nodup.sublist ?_ hin
      apply List.monotone_filter_right
      intro x hx
      simp only [Bool.not_eq_true', decide_eq_false_iff_not] at hx
      simp only [ne_eq, decide_eq_true_eq]
      exact fun h => hx (Or.inl h)
    · intro a ha hb
      simp only [List.mem_filter, Bool.not_eq_true', decide_eq_false_iff_not] at hb
      exact hb.2 (Or.inr ha)

/-- Claim C8, witness: merging ids `["b", "a"]` under expansion `I`
into a registry already holding `a` under `I` appends only `b`, and
the per-expansion ids stay duplicate-free. -/
theorem update_registry_monotone_dedup_witness :
    (∃ t, update_registry [⟨"a", "I", "m"⟩] ["b", "a"] "I" "m2" =
        [⟨"a", "I", "m"⟩] ++ t) ∧
    (regIdsOf (update_registry [⟨"a", "I", "m"⟩] ["b", "a"] "I" "m2") "I").Nodup := by
  have h := update_registry_monotone_dedup [⟨"a", "I", "m"⟩] ["b", "a"] "I" "m2"
  exact ⟨h.1, h.2 (by decide) (by decide)⟩

/-! ### Claims C5 and C6 — collapse election -/

theorem negtransB {α : Type} {lt : α → α → Bool}
    (hc : ConnB lt) (ht : TransB lt) :
    ∀ a b c, lt a b = false → lt b c = false → lt a c = false := by
  intro a b c h1 h2
  cases hac : lt a c with
  | false => rfl
  | true =>
    exfalso
    cases hba : lt b a with
    | true =>
      have := ht b a c hba hac
      rw [this] at h2
      exact Bool.noConfusion h2
    | false =>
      have : a = b := hc a b h1 hba
      subst this
      rw [hac] at h2
      exact Bool.noConfusion h2

theorem electionWins_irrefl (r : CRow) : electionWins r r = false := by
  simp [electionWins, rank4Lt_irrefl (electionRank r)]

theorem electionWins_negtrans {a b c : CRow}
    (h1 : electionWins a b = false) (h2 : electionWins b c = false) :
    electionWins a c = false :=
  negtransB rank4Lt_conn rank4Lt_trans _ _ _ h1 h2

theorem electionWins_asymm {a b : CRow} (h : electionWins a b = true) :
    electionWins b a = false := rank4Lt_asymm h

/-- The element kept by the election fold is a member of the group. -/
theorem elect_fold_mem :
    ∀ (rs : List CRow) (r : CRow),
      rs.foldl (fun best x => if electionWins x best then x else best) r ∈ r :: rs := by
  intro rs
  induction rs with
  | nil => intro r; simp
  | cons y t ih =>
    intro r
    simp only [List.foldl_cons]
    by_cases h : electionWins y r = true
    · rw [if_pos h]
      have := ih y
      rcases List.mem_cons.mp this with h' | h'
      · rw [h']; simp
      · simp [h']
    · rw [if_neg h]
      have := ih r
      rcases List.mem_cons.mp this with h' | h'
      · rw [h']; simp
      · simp [h']

/-- No member of the group strictly beats the fold result. -/
theorem elect_fold_not_beaten :
    ∀ (rs : List CRow) (r : CRow), ∀ x ∈ r :: rs,
      electionWins x
        (rs.foldl (fun best x => if electionWins x best then x else best) r) = false := by
  intro rs
  induction rs with
  | nil =>
    intro r x hx
    rcases List.mem_cons.mp hx with h | h
    · subst h; exact electionWins_irrefl x
    · simp at h
  | cons y t ih =>
    intro r x hx
    simp only [List.foldl_cons]
    by_cases hw : electionWins y r = true
    · rw [if_pos hw]
      rcases List.mem_cons.mp hx with h | h
      · -- x = r, the loser of this comparison
        have hl : electionWins r y = false := electionWins_asymm hw
        have hb : electionWins y
            (t.foldl (fun best x => if electionWins x best then x else best) y) = false :=
          ih y y (List.mem_cons_self y t)
        rw [h]
        exact electionWins_negtrans hl hb
      · exact ih y x h
    · rw [if_neg hw]
      rcases List.mem_cons.mp hx with h | h
      · rw [h]
        exact ih r r (List.mem_cons_self r t)
      · rcases List.mem_cons.mp h with h' | h'
        · -- x = y, the loser of this comparison
          have hl : electionWins y r = false := by
            cases hxx : electionWins y r
            · rfl
            · exact absurd hxx hw
          have hb : electionWins r
              (t.foldl (fun best x => if electionWins x best then x else best) r) = false :=
            ih r r (List.mem_cons_self r t)
          rw [h']
          exact electionWins_negtrans hl hb
        · exact ih r x (List.mem_cons.mpr (Or.inr h'))

/-- Strings with equal character lists are equal. -/
theorem string_ext {a b : String} (h : a.data = b.data) : a = b := by
  cases a; cases b
  exact congrArg String.mk h

/-- Injectivity of a function on a list with `Nodup` image. -/
theorem nodup_map_inj {α β : Type} {f : α → β} :
    ∀ {l : List α}, (l.map f).Nodup → ∀ x ∈ l, ∀ y ∈ l, f x = f y → x = y := by
  intro l
  induction l with
  | nil => intro _ x hx; simp at hx
  | cons a t ih =>
    intro hn x hx y hy hf
    simp only [List.map_cons, List.nodup_cons] at hn
    rcases List.mem_cons.mp hx with hx' | hx' <;>
      rcases List.mem_cons.mp hy with hy' | hy'
    · rw [hx', hy']
    · exfalso; subst hx'
      exact hn.1 (hf ▸ List.mem_map_of_mem f hy')
    · exfalso; subst hy'
      exact hn.1 (hf ▸ List.mem_map_of_mem f hx')
    · exact ih hn.2 x hx' y hy' hf

theorem crow_eq_of_rank_eq {a b : CRow}
    (hk : a.collapse_key = b.collapse_key)
    (hr : electionRank a = electionRank b) : a = b := by
  obtain ⟨k1, c1, o1, i1, s1⟩ := a
  obtain ⟨k2, c2, o2, i2, s2⟩ := b
  simp only [electionRank, Prod.mk.injEq] at hr
  obtain ⟨h1, h2, h3, h4⟩ := hr
  simp only at hk
  have hc : c1 = c2 := string_ext h4
  simp only [CRow.mk.injEq]
  exact ⟨hk, hc, by omega, by omega, by omega⟩

/-- Claim C5.  In every collapse group with distinct canonical ids, the
elected representative is a member that strictly beats every other
member under the deterministic order (owners desc, instances desc,
spotify-link desc, canonical_id asc); a group of size 1 elects its
sole member. -/
theorem collapse_versions_elects_unique_max :
    ∀ (g : List CRow) (r : CRow),
      (g.map (·.canonical_id)).Nodup →
      elect g = some r →
      r ∈ g ∧ (∀ x ∈ g, x ≠ r → electionWins r x = true) ∧
      (∀ x, g = [x] → r = x) := by
  intro g r hn he
  cases g with
  | nil => simp [elect] at he
  | cons a rs =>
    simp only [elect, Option.some.injEq] at he
    subst he
    refine ⟨elect_fold_mem rs a, ?_, ?_⟩
    · intro x hx hne
      have hnb : electionWins x
          (rs.foldl (fun best x => if electionWins x best then x else best) a) = false :=
        elect_fold_not_beaten rs a x hx
      cases hrb : electionWins (rs.foldl (fun best x => if electionWins x best then x else best) a) x with
      | true => rfl
      | false =>
        exfalso
        have hnb' : rank4Lt (electionRank x)
            (electionRank (rs.foldl (fun best x => if electionWins x best then x else best) a)) = false := hnb
        have hrb' : rank4Lt
            (electionRank (rs.foldl (fun best x => if electionWins x best then x else best) a))
            (electionRank x) = false := hrb
        have hrank : electionRank x =
            electionRank (rs.foldl (fun best x => if electionWins x best then x else best) a) :=
          rank4Lt_conn _ _ hnb' hrb'
        have hmem := elect_fold_mem rs a
        have hkey : x.canonical_id =
            (rs.foldl (fun best x => if electionWins x best then x else best) a).canonical_id := by
          have hdata := congrArg (fun t : ℤ × ℤ × ℤ × List Char => t.2.2.2) hrank
          exact string_ext hdata
        exact hne (nodup_map_inj hn x hx _ hmem hkey)
    · intro x hgx
      have h1 : a = x := (List.cons.injEq .. ▸ hgx).1
      have h2 : rs = [] := (List.cons.injEq .. ▸ hgx).2
      subst h1; subst h2
      rfl

/-- Claim C5, witness: a two-member group with distinct ids elects the
higher-owners row, which beats the other member. -/
theorem collapse_versions_elects_unique_max_witness :
    elect [⟨"k", "idB", 1, 0, 0⟩, ⟨"k", "idA", 3, 0, 0⟩] =
        some ⟨"k", "idA", 3, 0, 0⟩ ∧
    (⟨"k", "idA", 3, 0, 0⟩ : CRow) ∈
        [(⟨"k", "idB", 1, 0, 0⟩ : CRow), ⟨"k", "idA", 3, 0, 0⟩] ∧
    electionWins ⟨"k", "idA", 3, 0, 0⟩ ⟨"k", "idB", 1, 0, 0⟩ = true := by
  have h := collapse_versions_elects_unique_max
    [⟨"k", "idB", 1, 0, 0⟩, ⟨"k", "idA", 3, 0, 0⟩] ⟨"k", "idA", 3, 0, 0⟩
    (by decide) (by decide)
  exact ⟨by decide, h.1, h.2.1 ⟨"k", "idB", 1, 0, 0⟩ (by decide) (by decide)⟩

/-- With distinct collapse keys, filtering the pool down to one row's
key yields exactly that row. -/
theorem filter_key_singleton :
    ∀ {pool : List CRow}, (pool.map (·.collapse_key)).Nodup →
      ∀ r ∈ pool,
        pool.filter (fun x => x.collapse_key = r.collapse_key) = [r] := by
  intro pool
  induction pool with
  | nil => intro _ r hr; simp at hr
  | cons p rest ih =>
    intro hn r hr
    simp only [List.map_cons, List.nodup_cons] at hn
    rcases List.mem_cons.mp hr with h | h
    · subst h
      rw [List.filter_cons_of_pos (by simp)]
      congr 1
      rw [List.filter_eq_nil_iff]
      intro x hx
      simp only [decide_eq_true_eq]
      intro hk
      exact hn.1 (hk ▸ List.mem_map_of_mem _ hx)
    · rw [List.filter_cons_of_neg, ih hn.2 r h]
      simp only [decide_eq_true_eq]
      intro hk
      exact hn.1 (hk ▸ List.mem_map_of_mem _ h)

/-- Claim C6.  Collapsing a pool that already holds exactly one row per
collapse key returns the same set of candidates (a permutation of the
pool): every group has size 1 and re-elects its sole member. -/
theorem collapse_versions_idempotent :
    ∀ pool : List CRow, (pool.map (·.collapse_key)).Nodup →
      List.Perm (collapse_versions pool) pool := by
  intro pool hn
  have hpool_nodup : pool.Nodup := List.Nodup.of_map _ hn
  have hkeys_perm : List.Perm
      (sortBy (fun a b => charsLt a.data b.data) ((pool.map (·.collapse_key)).dedup))
      (pool.map (·.collapse_key)) := by
    have h1 := sortBy_perm (fun a b => charsLt a.data b.data)
      ((pool.map (·.collapse_key)).dedup)
    have h2 : (pool.map (·.collapse_key)).dedup = pool.map (·.collapse_key) :=
      List.dedup_eq_self.mpr hn
    have h3 : List.Perm ((pool.map (·.collapse_key)).dedup)
        (pool.map (·.collapse_key)) := by
      rw [h2]
    exact h1.trans h3
  have hkeys_nodup : (sortBy (fun a b => charsLt a.data b.data)
      ((pool.map (·.collapse_key)).dedup)).Nodup :=
    hkeys_perm.nodup_iff.mpr hn
  have hmem_elect : ∀ k r, elect (pool.filter (fun x => x.collapse_key = k)) = some r →
      r ∈ pool ∧ r.collapse_key = k := by
    intro k r he
    cases hf : pool.filter (fun x => x.collapse_key = k) with
    | nil => rw [hf] at he; simp [elect] at he
    | cons a rs =>
      rw [hf] at he
      simp only [elect, Option.some.injEq] at he
      have hmem : r ∈ a :: rs := he ▸ elect_fold_mem rs a
      rw [← hf] at hmem
      have := List.mem_filter.mp hmem
      exact ⟨this.1, by simpa using this.2⟩
  have hcollapse_nodup : (collapse_versions pool).Nodup := by
    apply List.Nodup.filterMap ?_ hkeys_nodup
    intro k1 k2 r h1 h2
    simp only [Option.mem_def] at h1 h2
    have e1 := (hmem_elect k1 r h1).2
    have e2 := (hmem_elect k2 r h2).2
    rw [← e1, ← e2]
  apply (List.perm_ext_iff_of_nodup hcollapse_nodup hpool_nodup).mpr
  intro r
  constructor
  · intro hr
    simp only [collapse_versions, List.mem_filterMap] at hr
    obtain ⟨k, _, he⟩ := hr
    exact (hmem_elect k r he).1
  · intro hr
    simp only [collapse_versions, List.mem_filterMap]
    refine ⟨r.collapse_key, ?_, ?_⟩
    · exact hkeys_perm.mem_iff.mpr (List.mem_map_of_mem _ hr)
    · rw [filter_key_singleton hn r hr]
      rfl

/-- Claim C6, witness: collapsing an already-collapsed two-row pool
returns a permutation of it. -/
theorem collapse_versions_idempotent_witness :
    List.Perm
      (collapse_versions [⟨"k1", "a", 1, 0, 0⟩, ⟨"k2", "b", 2, 0, 0⟩])
      [⟨"k1", "a", 1, 0, 0⟩, ⟨"k2", "b", 2, 0, 0⟩] :=
  collapse_versions_idempotent
    [⟨"k1", "a", 1, 0, 0⟩, ⟨"k2", "b", 2, 0, 0⟩] (by decide)

/-! ### Claim C4 — phase-2 year choice -/

/-- The weak order phase 2 minimizes: fewer cards already selected
first, ties broken by the smaller year value. -/
def pairLe (st : SelSt) (a z : ℤ) : Prop :=
  lookupD st.yearCounts a 0 < lookupD st.yearCounts z 0 ∨
    (lookupD st.yearCounts a 0 = lookupD st.yearCounts z 0 ∧ a ≤ z)

theorem pairLe_trans {st : SelSt} {a b c : ℤ}
    (h1 : pairLe st a b) (h2 : pairLe st b c) : pairLe st a c := by
  unfold pairLe at h1 h2 ⊢
  rcases h1 with h1 | ⟨h1, h1'⟩ <;> rcases h2 with h2 | ⟨h2, h2'⟩
  · left; omega
  · left; omega
  · left; omega
  · right; exact ⟨by omega, by omega⟩

theorem pairLe_of_strict {st : SelSt} {x y : ℤ}
    (h : lookupD st.yearCounts x 0 < lookupD st.yearCounts y 0 ∨
      (lookupD st.yearCounts x 0 = lookupD st.yearCounts y 0 ∧ x < y)) :
    pairLe st x y := by
  unfold pairLe
  rcases h with h | ⟨h, h'⟩
  · left; exact h
  · right; exact ⟨h, le_of_lt h'⟩

theorem pairLe_of_not_strict {st : SelSt} {x y : ℤ}
    (h : ¬(lookupD st.yearCounts x 0 < lookupD st.yearCounts y 0 ∨
      (lookupD st.yearCounts x 0 = lookupD st.yearCounts y 0 ∧ x < y))) :
    pairLe st y x := by
  unfold pairLe
  rcases Nat.lt_trichotomy (lookupD st.yearCounts y 0) (lookupD st.yearCounts x 0)
    with h1 | h1 | h1
  · left; exact h1
  · right
    refine ⟨h1, ?_⟩
    have hxy : ¬(x < y) := fun hlt => h (Or.inr ⟨h1.symm, hlt⟩)
    omega
  · exact absurd (Or.inl h1) h

/-- The phase-2 target-year fold picks a member of the active list that
is `pairLe`-minimal. -/
theorem chooseYear_spec (st : SelSt) :
    ∀ (ys : List ℤ) (y : ℤ),
      chooseYear st (y :: ys) ∈ y :: ys ∧
      ∀ z ∈ y :: ys, pairLe st (chooseYear st (y :: ys)) z := by
  intro ys
  induction ys with
  | nil =>
    intro y
    refine ⟨by simp [chooseYear], ?_⟩
    intro z hz
    simp only [List.mem_singleton] at hz
    subst hz
    have : chooseYear st [z] = z := by simp [chooseYear]
    rw [this]
    right
    exact ⟨rfl, le_refl z⟩
  | cons x t ih =>
    intro y
    by_cases hc : lookupD st.yearCounts x 0 < lookupD st.yearCounts y 0 ∨
        (lookupD st.yearCounts x 0 = lookupD st.yearCounts y 0 ∧ x < y)
    · have hcy : chooseYear st (y :: x :: t) = chooseYear st (x :: t) := by
        simp only [chooseYear, List.foldl_cons, if_pos hc]
      obtain ⟨hmem, hmin⟩ := ih x
      rw [hcy]
      refine ⟨List.mem_cons_of_mem y hmem, ?_⟩
      intro z hz
      rcases List.mem_cons.mp hz with hz' | hz'
      · subst hz'
        exact pairLe_trans (hmin x (List.mem_cons_self x t)) (pairLe_of_strict hc)
      · exact hmin z hz'
    · have hcy : chooseYear st (y :: x :: t) = chooseYear st (y :: t) := by
        simp only [chooseYear, List.foldl_cons, if_neg hc]
      obtain ⟨hmem, hmin⟩ := ih y
      rw [hcy]
      constructor
      · rcases List.mem_cons.mp hmem with h | h
        · rw [h]; exact List.mem_cons_self y (x :: t)
        · exact List.mem_cons_of_mem y (List.mem_cons_of_mem x h)
      · intro z hz
        rcases List.mem_cons.mp hz with hz' | hz'
        · subst hz'
          exact hmin z (List.mem_cons_self z t)
        · rcases List.mem_cons.mp hz' with hz'' | hz''
          · subst hz''
            exact pairLe_trans (hmin y (List.mem_cons_self y t)) (pairLe_of_not_strict hc)
          · exact hmin z (List.mem_cons_of_mem y hz'')

/-- The example pool of the claim: `[{id:A, year:1999, owners:3},
{id:B, year:1999, owners:1}, {id:C, year:2001, owners:2}]`. -/
def c4pool : List DRow :=
  [⟨"A", some 1999, 3, 0, 0, "", ""⟩,
   ⟨"B", some 1999, 1, 0, 0, "", ""⟩,
   ⟨"C", some 2001, 2, 0, 0, "", ""⟩]

/-- Claim C4.  In phase 2 the next year is always a `pairLe`-minimal
active year (fewest cards already selected, ties to the smaller year
value); and on the example pool with `limit = 3`, `max_per_album = 0`
the produced deck order is `[A, C, B]`. -/
theorem select_deck_phase2_fewest_first :
    (∀ (st : SelSt) (active : List ℤ), active ≠ [] →
      chooseYear st active ∈ active ∧
      ∀ z ∈ active, pairLe st (chooseYear st active) z) ∧
    ((select_deck c4pool 3 0).1.map (fun p => p.1.canonical_id) = ["A", "C", "B"]) := by
  constructor
  · intro st active hne
    cases active with
    | nil => exact absurd rfl hne
    | cons y ys => exact chooseYear_spec st ys y
  · decide

/-- Claim C4, witness: the year-choice minimality applied to the
concrete post-phase-1 situation of the example pool (years 1999 and
2001 active). -/
theorem select_deck_phase2_fewest_first_witness :
    chooseYear (initState c4pool) [1999, 2001] ∈ ([1999, 2001] : List ℤ) ∧
    pairLe (initState c4pool) (chooseYear (initState c4pool) [1999, 2001]) 2001 := by
  have h := select_deck_phase2_fewest_first.1 (initState c4pool) [1999, 2001]
    (by decide)
  exact ⟨h.1, h.2 2001 (by decide)⟩

/-! ### Pruning and state-effect lemmas for `select_deck` -/

/-- The predicate a kept row satisfies: not yet selected, and (when the
cap is active) its album still has room. -/
def keepPred (m : ℤ) (ids : List String) (ac : List (String × Nat)) (r : DRow) : Prop :=
  r.canonical_id ∉ ids ∧
    (0 < m → ((lookupD ac (effAlbumKey r) 0 : ℕ) : ℤ) < m)

theorem pruneRows_sublist (m : ℤ) (ids : List String) (ac : List (String × Nat)) :
    ∀ rows : List DRow, (pruneRows m ids ac rows).1.Sublist rows := by
  intro rows
  induction rows with
  | nil => simp [pruneRows]
  | cons r rest ih =>
    simp only [pruneRows]
    by_cases h1 : r.canonical_id ∈ ids
    · rw [if_pos h1]; exact ih.cons r
    · rw [if_neg h1]
      by_cases h2 : 0 < m ∧ m ≤ ((lookupD ac (effAlbumKey r) 0 : ℕ) : ℤ)
      · rw [if_pos h2]; exact ih.cons r
      · rw [if_neg h2]; exact ih.cons₂ r

theorem pruneRows_keeps (m : ℤ) (ids : List String) (ac : List (String × Nat)) :
    ∀ rows : List DRow, ∀ r ∈ (pruneRows m ids ac rows).1, keepPred m ids ac r := by
  intro rows
  induction rows with
  | nil => intro r hr; simp [pruneRows] at hr
  | cons x rest ih =>
    intro r hr
    simp only [pruneRows] at hr
    by_cases h1 : x.canonical_id ∈ ids
    · rw [if_pos h1] at hr; exact ih r hr
    · rw [if_neg h1] at hr
      by_cases h2 : 0 < m ∧ m ≤ ((lookupD ac (effAlbumKey x) 0 : ℕ) : ℤ)
      · rw [if_pos h2] at hr; exact ih r hr
      · rw [if_neg h2] at hr
        rcases List.mem_cons.mp hr with h | h
        · subst h
          refine ⟨h1, fun hm => ?_⟩
          by_contra hge
          exact h2 ⟨hm, by omega⟩
        · exact ih r h

/-- Rows that all satisfy the keep predicate are pruned to themselves
with no cap blocks. -/
theorem pruneRows_id_of_keep (m : ℤ) (ids : List String) (ac : List (String × Nat)) :
    ∀ rows : List DRow, (∀ r ∈ rows, keepPred m ids ac r) →
      pruneRows m ids ac rows = (rows, 0) := by
  intro rows
  induction rows with
  | nil => intro _; rfl
  | cons x rest ih =>
    intro hk
    have hx := hk x (List.mem_cons_self x rest)
    simp only [pruneRows]
    rw [ih (fun r hr => hk r (List.mem_cons_of_mem x hr))]
    rw [if_neg hx.1, if_neg]
    rintro ⟨hm, hge⟩
    have := hx.2 hm
    omega

/-- Pruning is idempotent on its own output. -/
theorem pruneRows_fixpoint (m : ℤ) (ids : List String) (ac : List (String × Nat))
    (rows : List DRow) :
    pruneRows m ids ac (pruneRows m ids ac rows).1 =
      ((pruneRows m ids ac rows).1, 0) :=
  pruneRows_id_of_keep m ids ac _ (pruneRows_keeps m ids ac rows)

/-- An emptied row list with a zero block count means every row was
dropped as already selected. -/
theorem pruneRows_empty_noblocks (m : ℤ) (ids : List String) (ac : List (String × Nat)) :
    ∀ rows : List DRow, pruneRows m ids ac rows = ([], 0) →
      ∀ r ∈ rows, r.canonical_id ∈ ids := by
  intro rows
  induction rows with
  | nil => intro _ r hr; simp at hr
  | cons x rest ih =>
    intro h r hr
    simp only [pruneRows] at h
    by_cases h1 : x.canonical_id ∈ ids
    · rw [if_pos h1] at h
      rcases List.mem_cons.mp hr with hr' | hr'
      · subst hr'; exact h1
      · exact ih h r hr'
    · rw [if_neg h1] at h
      by_cases h2 : 0 < m ∧ m ≤ ((lookupD ac (effAlbumKey x) 0 : ℕ) : ℤ)
      · rw [if_pos h2] at h
        have : (pruneRows m ids ac rest).2 + 1 = 0 := congrArg Prod.snd h
        omega
      · rw [if_neg h2] at h
        have : x :: (pruneRows m ids ac rest).1 = [] := congrArg Prod.fst h
        exact absurd this (by simp)

/-- Fields of the state untouched by `prune_unavailable_rows`. -/
theorem prune_fields (m : ℤ) (st : SelSt) (y : ℤ) :
    (prune_unavailable_rows m st y).selected = st.selected ∧
    (prune_unavailable_rows m st y).selectedIds = st.selectedIds ∧
    (prune_unavailable_rows m st y).albumCounts = st.albumCounts ∧
    (prune_unavailable_rows m st y).yearCounts = st.yearCounts ∧
    (prune_unavailable_rows m st y).artistCounts = st.artistCounts :=
  ⟨rfl, rfl, rfl, rfl, rfl⟩

theorem prune_blocks_le (m : ℤ) (st : SelSt) (y : ℤ) :
    st.blocks ≤ (prune_unavailable_rows m st y).blocks := by
  simp only [prune_unavailable_rows]
  omega

theorem prune_groups_self (m : ℤ) (st : SelSt) (y : ℤ) :
    lookupD (prune_unavailable_rows m st y).groups y [] =
      (pruneRows m st.selectedIds st.albumCounts (lookupD st.groups y [])).1 := by
  simp [prune_unavailable_rows, lookupD_setKey]

theorem prune_groups_other (m : ℤ) (st : SelSt) {y y' : ℤ} (h : y' ≠ y) :
    lookupD (prune_unavailable_rows m st y).groups y' [] =
      lookupD st.groups y' [] := by
  simp only [prune_unavailable_rows, lookupD_setKey, if_neg h]

/-- Fields of the state untouched by `pop_next`. -/
theorem pop_fields (m : ℤ) (st : SelSt) (y : ℤ) :
    (pop_next m st y).2.selected = st.selected ∧
    (pop_next m st y).2.selectedIds = st.selectedIds ∧
    (pop_next m st y).2.albumCounts = st.albumCounts ∧
    (pop_next m st y).2.yearCounts = st.yearCounts ∧
    (pop_next m st y).2.artistCounts = st.artistCounts := by
  simp only [pop_next]
  cases popMinBy (candidate_rank (prune_unavailable_rows m st y))
      (lookupD (prune_unavailable_rows m st y).groups y []) with
  | none => exact prune_fields m st y
  | some p => exact prune_fields m st y

theorem pop_blocks_le (m : ℤ) (st : SelSt) (y : ℤ) :
    st.blocks ≤ (pop_next m st y).2.blocks := by
  simp only [pop_next]
  cases popMinBy (candidate_rank (prune_unavailable_rows m st y))
      (lookupD (prune_unavailable_rows m st y).groups y []) with
  | none => exact prune_blocks_le m st y
  | some p => exact prune_blocks_le m st y

/-- A popped row was a member of the pruned group, hence satisfies the
keep predicate of the pre-pop state. -/
theorem pop_some_keep {m : ℤ} {st : SelSt} {y : ℤ} {r : DRow} {st₂ : SelSt}
    (h : pop_next m st y = (some r, st₂)) :
    keepPred m st.selectedIds st.albumCounts r ∧
      r ∈ lookupD st.groups y [] := by
  have hgrp := prune_groups_self m st y
  simp only [pop_next] at h
  cases hp : popMinBy (candidate_rank (prune_unavailable_rows m st y))
      (lookupD (prune_unavailable_rows m st y).groups y []) with
  | none => rw [hp] at h; exact absurd (congrArg Prod.fst h) (by simp)
  | some p =>
    obtain ⟨r', rest'⟩ := p
    rw [hp] at h
    have hr : r' = r := by
      have := congrArg Prod.fst h
      simpa using this
    rw [← hr]
    have hperm := popMinBy_spec hp
    have hmem : r' ∈ lookupD (prune_unavailable_rows m st y).groups y [] :=
      hperm.subset (List.mem_cons_self r' rest')
    rw [hgrp] at hmem
    constructor
    · exact pruneRows_keeps m st.selectedIds st.albumCounts _ r' hmem
    · exact List.Sublist.subset (pruneRows_sublist m _ _ _) hmem

/-- Groups of years other than the popped one are unchanged. -/
theorem pop_groups_other {m : ℤ} {st : SelSt} {y : ℤ} {ro : Option DRow} {st₂ : SelSt}
    (h : pop_next m st y = (ro, st₂)) {y' : ℤ} (hne : y' ≠ y) :
    lookupD st₂.groups y' [] = lookupD st.groups y' [] := by
  simp only [pop_next] at h
  cases hp : popMinBy (candidate_rank (prune_unavailable_rows m st y))
      (lookupD (prune_unavailable_rows m st y).groups y []) with
  | none =>
    rw [hp] at h
    have := congrArg Prod.snd h
    simp only at this
    rw [← this]
    exact prune_groups_other m st hne
  | some p =>
    obtain ⟨r', rest'⟩ := p
    rw [hp] at h
    have := congrArg Prod.snd h
    simp only at this
    rw [← this]
    simp only [lookupD_setKey, if_neg hne]
    exact prune_groups_other m st hne

/-- What a successful `add_row` does to the state. -/
theorem add_row_eq {m : ℤ} {st : SelSt} {r : DRow} {ph : String}
    (h1 : r.canonical_id ∉ st.selectedIds) (h2 : can_take m st r = true) :
    add_row m st r ph =
      { st with
        selectedIds := r.canonical_id :: st.selectedIds
        yearCounts := bumpKey st.yearCounts (r.year_int.getD 0)
        albumCounts :=
          if 0 < m then bumpKey st.albumCounts (effAlbumKey r) else st.albumCounts
        artistCounts := (parse_artists_canon r.artists_canon).foldl bumpKey st.artistCounts
        selected := st.selected ++ [(r, ph)] } := by
  simp [add_row, h1, h2]

/-- `add_row` only ever appends to the selected list. -/
theorem add_row_extends (m : ℤ) (st : SelSt) (r : DRow) (ph : String) :
    ∃ t, (add_row m st r ph).selected = st.selected ++ t := by
  by_cases h1 : r.canonical_id ∈ st.selectedIds
  · exact ⟨[], by simp [add_row, h1]⟩
  · by_cases h2 : can_take m st r = true
    · exact ⟨[(r, ph)], by rw [add_row_eq h1 h2]⟩
    · refine ⟨[], ?_⟩
      simp only [add_row, if_neg h1]
      rw [if_pos (by simpa using h2)]
      simp

theorem add_row_blocks (m : ℤ) (st : SelSt) (r : DRow) (ph : String) :
    (add_row m st r ph).blocks = st.blocks := by
  by_cases h1 : r.canonical_id ∈ st.selectedIds
  · simp [add_row, h1]
  · by_cases h2 : can_take m st r = true
    · rw [add_row_eq h1 h2]
    · simp only [add_row, if_neg h1]
      rw [if_pos (by simpa using h2)]

/-- A row satisfying the keep predicate can be taken. -/
theorem can_take_of_keep {m : ℤ} {st : SelSt} {r : DRow}
    (h : keepPred m st.selectedIds st.albumCounts r) : can_take m st r = true := by
  simp only [can_take, if_neg h.1]
  by_cases hm : m ≤ 0
  · rw [if_pos hm]
  · rw [if_neg hm]
    simpa using h.2 (by omega)

/-! ### The bookkeeping invariant of `select_deck` -/

/-- Canonical ids of selected rows, in deck order. -/
def cidsOf (sel : List (DRow × String)) : List String :=
  sel.map (fun p => p.1.canonical_id)

/-- How many selected cards use the album key `k`. -/
def albumCountIn (sel : List (DRow × String)) (k : String) : Nat :=
  (sel.filter (fun p => effAlbumKey p.1 = k)).length

/-- The bookkeeping invariant: the selected-id set tracks the selected
rows, no id is recorded twice, and (cap active) the album counter is
exactly the per-album selected count, which never exceeds the cap. -/
structure Inv (m : ℤ) (st : SelSt) : Prop where
  perm : List.Perm st.selectedIds (cidsOf st.selected)
  nodup : st.selectedIds.Nodup
  album : 0 < m → ∀ k, lookupD st.albumCounts k 0 = albumCountIn st.selected k
  cap : 0 < m → ∀ k, (albumCountIn st.selected k : ℤ) ≤ m

theorem Inv_initState (pool : List DRow) (m : ℤ) : Inv m (initState pool) := by
  refine ⟨List.Perm.refl _, List.nodup_nil, fun hm k => rfl, fun hm k => ?_⟩
  simp only [initState, albumCountIn, cidsOf, List.filter_nil, List.length_nil]
  omega

theorem Inv_prune {m : ℤ} {st : SelSt} (y : ℤ) (h : Inv m st) :
    Inv m (prune_unavailable_rows m st y) := by
  obtain ⟨f1, f2, f3, f4, f5⟩ := prune_fields m st y
  exact ⟨f2 ▸ f1 ▸ h.perm, f2 ▸ h.nodup, f3 ▸ f1 ▸ h.album, f1 ▸ h.cap⟩

theorem Inv_pop {m : ℤ} {st : SelSt} (y : ℤ) (h : Inv m st) :
    Inv m (pop_next m st y).2 := by
  obtain ⟨f1, f2, f3, f4, f5⟩ := pop_fields m st y
  exact ⟨f2 ▸ f1 ▸ h.perm, f2 ▸ h.nodup, f3 ▸ f1 ▸ h.album, f1 ▸ h.cap⟩

theorem albumCountIn_append (sel : List (DRow × String)) (r : DRow) (ph : String)
    (k : String) :
    albumCountIn (sel ++ [(r, ph)]) k =
      albumCountIn sel k + (if effAlbumKey r = k then 1 else 0) := by
  simp only [albumCountIn, List.filter_append, List.length_append]
  by_cases h : effAlbumKey r = k <;> simp [h]

theorem Inv_add {m : ℤ} {st : SelSt} {r : DRow} {ph : String}
    (h1 : r.canonical_id ∉ st.selectedIds)
    (hcap : 0 < m → ((lookupD st.albumCounts (effAlbumKey r) 0 : ℕ) : ℤ) < m)
    (h : Inv m st) : Inv m (add_row m st r ph) := by
  have h2 : can_take m st r = true := can_take_of_keep ⟨h1, hcap⟩
  rw [add_row_eq h1 h2]
  refine ⟨?_, ?_, ?_, ?_⟩
  · show List.Perm (r.canonical_id :: st.selectedIds)
      (cidsOf (st.selected ++ [(r, ph)]))
    have hc : cidsOf (st.selected ++ [(r, ph)]) =
        cidsOf st.selected ++ [r.canonical_id] := by simp [cidsOf]
    rw [hc]
    exact (List.Perm.cons _ h.perm).trans (List.perm_append_singleton _ _).symm
  · exact List.nodup_cons.mpr ⟨h1, h.nodup⟩
  · intro hm k
    rw [if_pos hm, lookupD_bumpKey, albumCountIn_append, h.album hm k]
    by_cases hk : k = effAlbumKey r
    · rw [if_pos hk, if_pos hk.symm, hk, h.album hm]
    · rw [if_neg hk, if_neg (fun hh => hk hh.symm)]
      omega
  · intro hm k
    rw [albumCountIn_append]
    by_cases hk : effAlbumKey r = k
    · rw [if_pos hk]
      have := hcap hm
      rw [h.album hm, hk] at this
      push_cast
      omega
    · rw [if_neg hk]
      have := h.cap hm k
      omega

/-! ### Initial groups and year list -/

theorem lookupD_map_keys {α β : Type} [DecidableEq α] (f : α → β) (d : β) :
    ∀ (ks : List α) (y : α),
      lookupD (ks.map fun k => (k, f k)) y d = if y ∈ ks then f y else d := by
  intro ks
  induction ks with
  | nil => intro y; simp [lookupD_nil]
  | cons k t ih =>
    intro y
    by_cases h : k = y
    · subst h
      simp [lookupD_cons]
    · rw [List.map_cons, lookupD_cons, if_neg h, ih]
      by_cases hm : y ∈ t
      · simp [hm, h]
      · rw [if_neg hm, if_neg (by simp [hm]; exact fun hh => h hh.symm)]

theorem yearsOf_nodup (pool : List DRow) : (yearsOf pool).Nodup :=
  (sortBy_perm _ _).nodup_iff.mpr (List.nodup_dedup _)

theorem initGroups_lookup (pool : List DRow) (y : ℤ) :
    lookupD (initState pool).groups y [] =
      if y ∈ yearsOf pool then
        sortBy (fun a b => rank4Lt (poolRank a) (poolRank b))
          (pool.filter (fun r => r.year_int = some y))
      else [] := by
  simp only [initState, initGroups]
  exact lookupD_map_keys _ [] (yearsOf pool) y

theorem initGroups_rows (pool : List DRow) (y : ℤ) :
    ∀ r ∈ lookupD (initState pool).groups y [], r ∈ pool ∧ r.year_int = some y := by
  intro r hr
  rw [initGroups_lookup] at hr
  by_cases h : y ∈ yearsOf pool
  · rw [if_pos h] at hr
    have hmem : r ∈ pool.filter (fun r => r.year_int = some y) :=
      (sortBy_perm _ _).subset hr
    have := List.mem_filter.mp hmem
    exact ⟨this.1, by simpa using this.2⟩
  · rw [if_neg h] at hr
    simp at hr

theorem initGroups_nonempty (pool : List DRow) (y : ℤ) (h : y ∈ yearsOf pool) :
    lookupD (initState pool).groups y [] ≠ [] := by
  rw [initGroups_lookup, if_pos h]
  have hy : y ∈ pool.filterMap (·.year_int) := by
    have h1 : y ∈ (pool.filterMap (·.year_int)).dedup :=
      (sortBy_perm _ _).subset h
    exact List.mem_dedup.mp h1
  obtain ⟨r, hr, hry⟩ := List.mem_filterMap.mp hy
  intro hnil
  have : r ∈ pool.filter (fun r => r.year_int = some y) := by
    simp [List.mem_filter, hr, hry]
  have := ((sortBy_perm (fun a b => rank4Lt (poolRank a) (poolRank b))
      (pool.filter (fun r => r.year_int = some y))).symm.subset this)
  rw [hnil] at this
  simp at this

/-! ### State evolution through `computeActive` and the phases -/

theorem computeActiveAux_fields (m : ℤ) :
    ∀ (ys : List ℤ) (st : SelSt),
      (computeActiveAux m ys st).2.selected = st.selected ∧
      (computeActiveAux m ys st).2.selectedIds = st.selectedIds ∧
      (computeActiveAux m ys st).2.albumCounts = st.albumCounts ∧
      (computeActiveAux m ys st).2.yearCounts = st.yearCounts ∧
      (computeActiveAux m ys st).2.artistCounts = st.artistCounts := by
  intro ys
  induction ys with
  | nil => intro st; exact ⟨rfl, rfl, rfl, rfl, rfl⟩
  | cons y t ih =>
    intro st
    simp only [computeActiveAux]
    obtain ⟨a1, a2, a3, a4, a5⟩ := ih (prune_unavailable_rows m st y)
    obtain ⟨b1, b2, b3, b4, b5⟩ := prune_fields m st y
    exact ⟨a1.trans b1, a2.trans b2, a3.trans b3, a4.trans b4, a5.trans b5⟩

theorem computeActiveAux_blocks (m : ℤ) :
    ∀ (ys : List ℤ) (st : SelSt),
      st.blocks ≤ (computeActiveAux m ys st).2.blocks := by
  intro ys
  induction ys with
  | nil => intro st; exact le_refl _
  | cons y t ih =>
    intro st
    simp only [computeActiveAux]
    exact (prune_blocks_le m st y).trans (ih (prune_unavailable_rows m st y))

theorem Inv_computeActiveAux {m : ℤ} (ys : List ℤ) {st : SelSt} (h : Inv m st) :
    Inv m (computeActiveAux m ys st).2 := by
  obtain ⟨f1, f2, f3, f4, f5⟩ := computeActiveAux_fields m ys st
  exact ⟨f2 ▸ f1 ▸ h.perm, f2 ▸ h.nodup, f3 ▸ f1 ▸ h.album, f1 ▸ h.cap⟩

theorem phase1_extends (m : ℤ) (L : Nat) :
    ∀ (ys : List ℤ) (st : SelSt),
      ∃ t, (phase1 m L ys st).selected = st.selected ++ t := by
  intro ys
  induction ys with
  | nil => intro st; exact ⟨[], by simp [phase1]⟩
  | cons y t ih =>
    intro st
    simp only [phase1]
    by_cases hL : L ≤ st.selected.length
    · rw [if_pos hL]; exact ⟨[], by simp⟩
    · rw [if_neg hL]
      cases hpop : pop_next m st y with
      | mk ro st' =>
        cases ro with
        | none =>
          obtain ⟨t1, ht1⟩ := ih st'
          refine ⟨t1, ?_⟩
          rw [ht1]
          have : st'.selected = st.selected := by
            have h := (pop_fields m st y).1
            rw [hpop] at h
            exact h
          rw [this]
        | some r =>
          obtain ⟨t1, ht1⟩ := ih (add_row m st' r "coverage")
          obtain ⟨t2, ht2⟩ := add_row_extends m st' r "coverage"
          refine ⟨t2 ++ t1, ?_⟩
          rw [ht1, ht2]
          have : st'.selected = st.selected := by
            have h := (pop_fields m st y).1
            rw [hpop] at h
            exact h
          rw [this, List.append_assoc]

theorem phase1_blocks (m : ℤ) (L : Nat) :
    ∀ (ys : List ℤ) (st : SelSt),
      st.blocks ≤ (phase1 m L ys st).blocks := by
  intro ys
  induction ys with
  | nil => intro st; exact le_refl _
  | cons y t ih =>
    intro st
    simp only [phase1]
    by_cases hL : L ≤ st.selected.length
    · rw [if_pos hL]
    · rw [if_neg hL]
      cases hpop : pop_next m st y with
      | mk ro st' =>
        have hb : st.blocks ≤ st'.blocks := by
          have h := pop_blocks_le m st y
          rw [hpop] at h
          exact h
        cases ro with
        | none => exact hb.trans (ih st')
        | some r =>
          refine hb.trans ?_
          have := ih (add_row m st' r "coverage")
          rw [add_row_blocks] at this
          exact this

theorem Inv_phase1 {m : ℤ} {L : Nat} :
    ∀ (ys : List ℤ) {st : SelSt}, Inv m st → Inv m (phase1 m L ys st) := by
  intro ys
  induction ys with
  | nil => intro st h; simpa [phase1] using h
  | cons y t ih =>
    intro st h
    simp only [phase1]
    by_cases hL : L ≤ st.selected.length
    · rw [if_pos hL]; exact h
    · rw [if_neg hL]
      cases hpop : pop_next m st y with
      | mk ro st' =>
        have hst' : Inv m st' := by
          have := Inv_pop y h
          rw [hpop] at this
          exact this
        cases ro with
        | none => exact ih hst'
        | some r =>
          apply ih
          obtain ⟨hkeep, _⟩ := pop_some_keep hpop
          obtain ⟨f1, f2, f3, f4, f5⟩ := pop_fields m st y
          rw [hpop] at f1 f2 f3
          refine Inv_add ?_ ?_ hst'
          · rw [f2]; exact hkeep.1
          · rw [f3]; exact hkeep.2

theorem phase2_extends (m : ℤ) (L : Nat) :
    ∀ (fuel : Nat) (st : SelSt),
      ∃ t, (phase2 m L fuel st).selected = st.selected ++ t := by
  intro fuel
  induction fuel with
  | zero => intro st; exact ⟨[], by simp [phase2]⟩
  | succ n ih =>
    intro st
    simp only [phase2]
    by_cases hL : L ≤ st.selected.length
    · rw [if_pos hL]; exact ⟨[], by simp⟩
    · rw [if_neg hL]
      cases hca : computeActive m st with
      | mk active st₁ =>
        have hsel1 : st₁.selected = st.selected := by
          have h := (computeActiveAux_fields m (st.groups.map (·.1)) st).1
          simp only [computeActive] at hca
          rw [hca] at h
          exact h
        by_cases hact : active.isEmpty
        · rw [if_pos hact]; exact ⟨[], by rw [hsel1]; simp⟩
        · rw [if_neg hact]
          cases hpop : pop_next m st₁ (chooseYear st₁ active) with
          | mk ro st₂ =>
            have hsel2 : st₂.selected = st₁.selected := by
              have h := (pop_fields m st₁ (chooseYear st₁ active)).1
              rw [hpop] at h
              exact h
            cases ro with
            | none =>
              obtain ⟨t1, ht1⟩ := ih st₂
              exact ⟨t1, by rw [ht1, hsel2, hsel1]⟩
            | some r =>
              obtain ⟨t1, ht1⟩ := ih (add_row m st₂ r "waterfill")
              obtain ⟨t2, ht2⟩ := add_row_extends m st₂ r "waterfill"
              refine ⟨t2 ++ t1, ?_⟩
              rw [ht1, ht2, hsel2, hsel1, List.append_assoc]

theorem phase2_blocks (m : ℤ) (L : Nat) :
    ∀ (fuel : Nat) (st : SelSt),
      st.blocks ≤ (phase2 m L fuel st).blocks := by
  intro fuel
  induction fuel with
  | zero => intro st; exact le_refl _
  | succ n ih =>
    intro st
    simp only [phase2]
    by_cases hL : L ≤ st.selected.length
    · rw [if_pos hL]
    · rw [if_neg hL]
      cases hca : computeActive m st with
      | mk active st₁ =>
        have hb1 : st.blocks ≤ st₁.blocks := by
          have h := computeActiveAux_blocks m (st.groups.map (·.1)) st
          simp only [computeActive] at hca
          rw [hca] at h
          exact h
        by_cases hact : active.isEmpty
        · rw [if_pos hact]; exact hb1
        · rw [if_neg hact]
          cases hpop : pop_next m st₁ (chooseYear st₁ active) with
          | mk ro st₂ =>
            have hb2 : st₁.blocks ≤ st₂.blocks := by
              have h := pop_blocks_le m st₁ (chooseYear st₁ active)
              rw [hpop] at h
              exact h
            cases ro with
            | none => exact hb1.trans (hb2.trans (ih st₂))
            | some r =>
              refine hb1.trans (hb2.trans ?_)
              have := ih (add_row m st₂ r "waterfill")
              rw [add_row_blocks] at this
              exact this

theorem Inv_phase2 {m : ℤ} {L : Nat} :
    ∀ (fuel : Nat) {st : SelSt}, Inv m st → Inv m (phase2 m L fuel st) := by
  intro fuel
  induction fuel with
  | zero => intro st h; simpa [phase2] using h
  | succ n ih =>
    intro st h
    simp only [phase2]
    by_cases hL : L ≤ st.selected.length
    · rw [if_pos hL]; exact h
    · rw [if_neg hL]
      cases hca : computeActive m st with
      | mk active st₁ =>
        have h1 : Inv m st₁ := by
          have := Inv_computeActiveAux (st.groups.map (·.1)) h
          simp only [computeActive] at hca
          rw [hca] at this
          exact this
        by_cases hact : active.isEmpty
        · rw [if_pos hact]; exact h1
        · rw [if_neg hact]
          cases hpop : pop_next m st₁ (chooseYear st₁ active) with
          | mk ro st₂ =>
            have h2 : Inv m st₂ := by
              have := Inv_pop (chooseYear st₁ active) h1
              rw [hpop] at this
              exact this
            cases ro with
            | none => exact ih h2
            | some r =>
              apply ih
              obtain ⟨hkeep, _⟩ := pop_some_keep hpop
              obtain ⟨f1, f2, f3, f4, f5⟩ := pop_fields m st₁ (chooseYear st₁ active)
              rw [hpop] at f2 f3
              refine Inv_add ?_ ?_ h2
              · rw [f2]; exact hkeep.1
              · rw [f3]; exact hkeep.2

/-! ### Claim C1 — structural guarantee of the deck -/

/-- Claim C1.  Every deck produced by `select_deck` has pairwise
distinct canonical ids, and when the album cap is active no album key
is used by more than `max_per_album` cards (the code never relaxes the
cap, so the claim's relaxation exception is vacuously satisfied and
the bound holds unconditionally). -/
theorem select_deck_structural_guarantee :
    ∀ (pool : List DRow) (limit m : ℤ),
      ((select_deck pool limit m).1.map (fun p => p.1.canonical_id)).Nodup ∧
      (0 < m → ∀ k : String,
        ((albumCountIn (select_deck pool limit m).1 k : ℤ) ≤ m)) := by
  intro pool limit m
  by_cases hp : pool = []
  · subst hp
    constructor
    · simp [select_deck]
    · intro hm k
      have hdeck : (select_deck ([] : List DRow) limit m).1 = [] := by
        simp [select_deck]
      rw [hdeck]
      simp only [albumCountIn, List.filter_nil, List.length_nil]
      omega
  · have hInv : Inv m (phase2 m (targetLimit pool limit)
        (targetLimit pool limit + pool.length + 1)
        (phase1 m (targetLimit pool limit) (yearsOf pool) (initState pool))) :=
      Inv_phase2 _ (Inv_phase1 _ (Inv_initState pool m))
    have hsel : (select_deck pool limit m).1 =
        (phase2 m (targetLimit pool limit)
          (targetLimit pool limit + pool.length + 1)
          (phase1 m (targetLimit pool limit) (yearsOf pool) (initState pool))).selected := by
      simp only [select_deck, if_neg hp]
    rw [hsel]
    constructor
    · exact hInv.perm.nodup_iff.mp hInv.nodup
    · intro hm k
      exact hInv.cap hm k

/-- Claim C1, witness: a pool with a shared album key, `limit = 3`,
`max_per_album = 1` — the deck has distinct ids and album `"X"` is
used at most once. -/
theorem select_deck_structural_guarantee_witness :
    ((select_deck
        [⟨"w1", some 1990, 1, 0, 0, "X", ""⟩,
         ⟨"w2", some 1991, 1, 0, 0, "X", ""⟩,
         ⟨"w3", some 1992, 1, 0, 0, "Y", ""⟩] 3 1).1.map
      (fun p => p.1.canonical_id)).Nodup ∧
    ((albumCountIn (select_deck
        [⟨"w1", some 1990, 1, 0, 0, "X", ""⟩,
         ⟨"w2", some 1991, 1, 0, 0, "X", ""⟩,
         ⟨"w3", some 1992, 1, 0, 0, "Y", ""⟩] 3 1).1 "X" : ℤ) ≤ 1) := by
  have h := select_deck_structural_guarantee
    [⟨"w1", some 1990, 1, 0, 0, "X", ""⟩,
     ⟨"w2", some 1991, 1, 0, 0, "X", ""⟩,
     ⟨"w3", some 1992, 1, 0, 0, "Y", ""⟩] 3 1
  exact ⟨h.1, h.2 (by decide) "X"⟩

/-! ### Claim C10 — termination of the phase-2 loop -/

theorem has_candidate_snd (m : ℤ) (st : SelSt) (y : ℤ) :
    (has_candidate m st y).2 = prune_unavailable_rows m st y := rfl

/-- A year group is pruned: re-pruning it in state `st` keeps every
row and counts no block. -/
def isFix (m : ℤ) (st : SelSt) (y : ℤ) : Prop :=
  pruneRows m st.selectedIds st.albumCounts (lookupD st.groups y []) =
    (lookupD st.groups y [], 0)

theorem prune_makes_fix (m : ℤ) (st : SelSt) (y : ℤ) :
    isFix m (prune_unavailable_rows m st y) y := by
  unfold isFix
  rw [prune_groups_self]
  exact pruneRows_fixpoint m st.selectedIds st.albumCounts (lookupD st.groups y [])

theorem prune_preserves_fix {m : ℤ} {st : SelSt} {y : ℤ}
    (h : isFix m st y) (y' : ℤ) :
    isFix m (prune_unavailable_rows m st y') y ∧
    lookupD (prune_unavailable_rows m st y').groups y [] =
      lookupD st.groups y [] := by
  by_cases he : y = y'
  · subst he
    have hgrp : lookupD (prune_unavailable_rows m st y).groups y [] =
        lookupD st.groups y [] := by
      rw [prune_groups_self]
      exact congrArg Prod.fst h
    refine ⟨?_, hgrp⟩
    unfold isFix
    rw [hgrp]
    exact h
  · have hgrp := @prune_groups_other m st y' y (fun hh => he hh)
    exact ⟨by unfold isFix; rw [hgrp]; exact h, hgrp⟩

theorem computeActiveAux_preserves_fix {m : ℤ} {y : ℤ} :
    ∀ (ys : List ℤ) {st : SelSt}, isFix m st y →
      isFix m (computeActiveAux m ys st).2 y ∧
      lookupD (computeActiveAux m ys st).2.groups y [] =
        lookupD st.groups y [] := by
  intro ys
  induction ys with
  | nil => intro st h; exact ⟨h, rfl⟩
  | cons y0 t ih =>
    intro st h
    simp only [computeActiveAux]
    obtain ⟨h1, h2⟩ := prune_preserves_fix h y0
    obtain ⟨h3, h4⟩ := ih h1
    exact ⟨h3, h4.trans h2⟩

/-- Every reported active year has a non-empty, already-pruned group
in the state `computeActiveAux` returns. -/
theorem computeActiveAux_active {m : ℤ} :
    ∀ (ys : List ℤ) (st : SelSt), ∀ y ∈ (computeActiveAux m ys st).1,
      lookupD (computeActiveAux m ys st).2.groups y [] ≠ [] ∧
      isFix m (computeActiveAux m ys st).2 y := by
  intro ys
  induction ys with
  | nil => intro st y hy; simp [computeActiveAux] at hy
  | cons y0 t ih =>
    intro st y hy
    simp only [computeActiveAux, has_candidate_snd] at hy ⊢
    by_cases hb : (has_candidate m st y0).1 = true
    · rw [if_pos hb] at hy
      rcases List.mem_cons.mp hy with h | h
      · subst h
        have hfix : isFix m (prune_unavailable_rows m st y) y :=
          prune_makes_fix m st y
        have hne : lookupD (prune_unavailable_rows m st y).groups y [] ≠ [] := by
          simp only [has_candidate] at hb
          intro hnil
          rw [hnil] at hb
          simp at hb
        obtain ⟨hf2, hg2⟩ := computeActiveAux_preserves_fix t hfix
        exact ⟨by rw [hg2]; exact hne, hf2⟩
      · exact ih (prune_unavailable_rows m st y0) y h
    · rw [if_neg hb] at hy
      exact ih (prune_unavailable_rows m st y0) y hy

theorem prune_keeps_empty {m : ℤ} {st : SelSt} {y : ℤ}
    (h : lookupD st.groups y [] = []) (y' : ℤ) :
    lookupD (prune_unavailable_rows m st y').groups y [] = [] := by
  by_cases he : y = y'
  · subst he
    rw [prune_groups_self, h]
    rfl
  · rw [prune_groups_other m st (fun hh => he hh)]
    exact h

theorem computeActiveAux_keeps_empty {m : ℤ} {y : ℤ} :
    ∀ (ys : List ℤ) {st : SelSt}, lookupD st.groups y [] = [] →
      lookupD (computeActiveAux m ys st).2.groups y [] = [] := by
  intro ys
  induction ys with
  | nil => intro st h; exact h
  | cons y0 t ih =>
    intro st h
    simp only [computeActiveAux]
    exact ih (prune_keeps_empty h y0)

/-- When the reported active list is empty, every processed year's
group is empty in the returned state. -/
theorem computeActiveAux_empty_active {m : ℤ} :
    ∀ (ys : List ℤ) (st : SelSt), (computeActiveAux m ys st).1 = [] →
      ∀ y ∈ ys, lookupD (computeActiveAux m ys st).2.groups y [] = [] := by
  intro ys
  induction ys with
  | nil => intro st _ y hy; simp at hy
  | cons y0 t ih =>
    intro st hact y hy
    simp only [computeActiveAux, has_candidate_snd] at hact ⊢
    by_cases hb : (has_candidate m st y0).1 = true
    · rw [if_pos hb] at hact
      exact absurd hact (by simp)
    · rw [if_neg hb] at hact
      rcases List.mem_cons.mp hy with h | h
      · rw [h]
        have hg : lookupD (prune_unavailable_rows m st y0).groups y0 [] = [] := by
          have hb' := hb
          simp only [has_candidate, Bool.not_eq_true] at hb'
          cases hx : lookupD (prune_unavailable_rows m st y0).groups y0 []
          · rfl
          · rw [hx] at hb'; simp at hb'
        exact computeActiveAux_keeps_empty t hg
      · exact ih (prune_unavailable_rows m st y0) hact y h

/-- All groups with empty row lists yield an empty active list. -/
theorem computeActiveAux_of_empty {m : ℤ} :
    ∀ (ys : List ℤ) (st : SelSt), (∀ y ∈ ys, lookupD st.groups y [] = []) →
      (computeActiveAux m ys st).1 = [] := by
  intro ys
  induction ys with
  | nil => intro st _; rfl
  | cons y0 t ih =>
    intro st h
    simp only [computeActiveAux, has_candidate_snd]
    have hb : (has_candidate m st y0).1 = false := by
      simp only [has_candidate]
      rw [prune_groups_self, h y0 (List.mem_cons_self y0 t), ]
      rfl
    rw [hb]
    simp only [Bool.false_eq_true, if_false]
    exact ih (prune_unavailable_rows m st y0)
      (fun y hy => prune_keeps_empty (h y (List.mem_cons_of_mem y0 hy)) y0)

theorem setKey_keys_mem {α β : Type} [DecidableEq α] :
    ∀ (l : List (α × β)) (k : α) (v : β), k ∈ l.map Prod.fst →
      (setKey l k v).map Prod.fst = l.map Prod.fst := by
  intro l
  induction l with
  | nil => intro k v h; simp at h
  | cons p rest ih =>
    intro k v h
    simp only [setKey]
    by_cases hk : p.1 = k
    · rw [if_pos hk, List.map_cons, List.map_cons, hk]
    · rw [if_neg hk, List.map_cons, List.map_cons, ih k v]
      simp only [List.map_cons, List.mem_cons] at h
      rcases h with h | h
      · exact absurd h.symm hk
      · exact h

theorem prune_keys {m : ℤ} {st : SelSt} {y : ℤ}
    (h : y ∈ st.groups.map Prod.fst) :
    (prune_unavailable_rows m st y).groups.map Prod.fst =
      st.groups.map Prod.fst := by
  simp only [prune_unavailable_rows]
  exact setKey_keys_mem st.groups y _ h

theorem computeActiveAux_keys {m : ℤ} :
    ∀ (ys : List ℤ) (st : SelSt), (∀ y ∈ ys, y ∈ st.groups.map Prod.fst) →
      (computeActiveAux m ys st).2.groups.map Prod.fst =
        st.groups.map Prod.fst := by
  intro ys
  induction ys with
  | nil => intro st _; rfl
  | cons y0 t ih =>
    intro st h
    simp only [computeActiveAux, has_candidate_snd]
    have hk : (prune_unavailable_rows m st y0).groups.map Prod.fst =
        st.groups.map Prod.fst :=
      prune_keys (h y0 (List.mem_cons_self y0 t))
    rw [ih (prune_unavailable_rows m st y0)
      (fun y hy => hk ▸ h y (List.mem_cons_of_mem y0 hy)), hk]

theorem pop_next_isSome_of_fix {m : ℤ} {st : SelSt} {y : ℤ}
    (hfix : isFix m st y) (hne : lookupD st.groups y [] ≠ []) :
    (pop_next m st y).1.isSome = true := by
  simp only [pop_next]
  have hgrp : lookupD (prune_unavailable_rows m st y).groups y [] =
      lookupD st.groups y [] := by
    rw [prune_groups_self]
    exact congrArg Prod.fst hfix
  cases hp : popMinBy (candidate_rank (prune_unavailable_rows m st y))
      (lookupD (prune_unavailable_rows m st y).groups y []) with
  | none =>
    exfalso
    apply hne
    rw [← hgrp]
    exact popMinBy_none_iff.mp hp
  | some p =>
    obtain ⟨r, rest⟩ := p
    simp

theorem phase2_progress (m : ℤ) (st : SelSt) (y : ℤ)
    (hy : y ∈ (computeActive m st).1) :
    ((pop_next m (computeActive m st).2 y).1).isSome = true := by
  have hy' : y ∈ (computeActiveAux m (st.groups.map (·.1)) st).1 := hy
  have h := computeActiveAux_active (m := m) (st.groups.map (·.1)) st y hy'
  exact pop_next_isSome_of_fix h.2 h.1

theorem phase2_exit (m : ℤ) (L : Nat) :
    ∀ (fuel : Nat) (st : SelSt), L ≤ fuel + st.selected.length →
      L ≤ (phase2 m L fuel st).selected.length ∨
      (computeActive m (phase2 m L fuel st)).1 = [] := by
  intro fuel
  induction fuel with
  | zero =>
    intro st h
    left
    simpa [phase2] using h
  | succ n ih =>
    intro st h
    simp only [phase2]
    by_cases hL : L ≤ st.selected.length
    · rw [if_pos hL]; left; exact hL
    · rw [if_neg hL]
      cases hca : computeActive m st with
      | mk active st₁ =>
        by_cases hact : active.isEmpty
        · rw [if_pos hact]
          right
          have hanil : active = [] := List.isEmpty_iff.mp hact
          have hcaux : computeActiveAux m (st.groups.map (·.1)) st = (active, st₁) := hca
          have hempty : ∀ y ∈ st.groups.map (·.1),
              lookupD st₁.groups y [] = [] := by
            intro y hy
            have h0 := computeActiveAux_empty_active (m := m)
              (st.groups.map (·.1)) st (by rw [hcaux, hanil]) y hy
            rw [hcaux] at h0
            exact h0
          have hkeys : st₁.groups.map (·.1) = st.groups.map (·.1) := by
            have h0 := computeActiveAux_keys (m := m) (st.groups.map (·.1)) st
              (fun y hy => hy)
            rw [hcaux] at h0
            exact h0
          show (computeActiveAux m (st₁.groups.map (·.1)) st₁).1 = []
          apply computeActiveAux_of_empty
          intro y hy
          rw [hkeys] at hy
          exact hempty y hy
        · rw [if_neg hact]
          have hne : active ≠ [] := fun hh => hact (by rw [hh]; rfl)
          have hty : chooseYear st₁ active ∈ active := by
            cases active with
            | nil => exact absurd rfl hne
            | cons a t => exact (chooseYear_spec st₁ t a).1
          have hsome : ((pop_next m st₁ (chooseYear st₁ active)).1).isSome = true := by
            have h1 : (computeActive m st).1 = active := by rw [hca]
            have h2 : (computeActive m st).2 = st₁ := by rw [hca]
            have := phase2_progress m st (chooseYear st₁ active)
              (by rw [h1]; exact hty)
            rwa [h2] at this
          cases hpop : pop_next m st₁ (chooseYear st₁ active) with
          | mk ro st₂ =>
            cases ro with
            | none =>
              rw [hpop] at hsome
              exact absurd hsome (by simp)
            | some r =>
              obtain ⟨hkeep, _⟩ := pop_some_keep hpop
              obtain ⟨f1, f2, f3, f4, f5⟩ :=
                pop_fields m st₁ (chooseYear st₁ active)
              rw [hpop] at f1 f2 f3
              have h1 : r.canonical_id ∉ st₂.selectedIds := by
                rw [f2]; exact hkeep.1
              have h2 : can_take m st₂ r = true := by
                apply can_take_of_keep
                rw [f2, f3]
                exact hkeep
              have hlen : (add_row m st₂ r "waterfill").selected.length =
                  st.selected.length + 1 := by
                rw [add_row_eq h1 h2]
                simp only [List.length_append, List.length_cons, List.length_nil]
                rw [f1]
                have hcaux : computeActiveAux m (st.groups.map (·.1)) st =
                    (active, st₁) := hca
                have hsel1 : st₁.selected = st.selected := by
                  have hfld := (computeActiveAux_fields m (st.groups.map (·.1)) st).1
                  rw [hcaux] at hfld
                  exact hfld
                rw [hsel1]
              have := ih (add_row m st₂ r "waterfill") (by omega)
              exact this

/-- Claim C10.  The phase-2 loop makes progress and terminates: (a)
whenever the `active_years` computation reports a year as active,
`pop_next` on the resulting (unchanged) state returns a row — the
silent `continue` branch is unreachable; (b) consequently, with at
least `limit - len(deck)` iterations of fuel available (as
`select_deck` always supplies), the loop ends in a genuine exit state:
the deck reached the target limit or no year has an eligible candidate
left. -/
theorem select_deck_phase2_terminates :
    (∀ (m : ℤ) (st : SelSt) (y : ℤ), y ∈ (computeActive m st).1 →
        ((pop_next m (computeActive m st).2 y).1).isSome = true) ∧
    (∀ (m : ℤ) (L fuel : Nat) (st : SelSt), L ≤ fuel + st.selected.length →
        L ≤ (phase2 m L fuel st).selected.length ∨
        (computeActive m (phase2 m L fuel st)).1 = []) :=
  ⟨phase2_progress, phase2_exit⟩

/-- Claim C10, witness: the progress and exit facts applied to a
one-row pool. -/
theorem select_deck_phase2_terminates_witness :
    ((pop_next 0 (computeActive 0 (initState [⟨"t", some 1990, 1, 0, 0, "", ""⟩])).2 1990).1).isSome = true ∧
    (1 ≤ (phase2 0 1 2 (initState [⟨"t", some 1990, 1, 0, 0, "", ""⟩])).selected.length ∨
      (computeActive 0 (phase2 0 1 2 (initState [⟨"t", some 1990, 1, 0, 0, "", ""⟩]))).1 = []) :=
  ⟨select_deck_phase2_terminates.1 0 (initState [⟨"t", some 1990, 1, 0, 0, "", ""⟩]) 1990 (by decide),
   select_deck_phase2_terminates.2 0 1 2 (initState [⟨"t", some 1990, 1, 0, 0, "", ""⟩]) (by decide)⟩

/-! ### Claims C3 and C2 — phase-1 coverage and cap conflicts -/

/-- The selected rows all come from the pool and carry years outside
the not-yet-visited year list `ys`. -/
def selWf (pool : List DRow) (st : SelSt) (ys : List ℤ) : Prop :=
  ∀ p ∈ st.selected, p.1 ∈ pool ∧ ∃ y', p.1.year_int = some y' ∧ y' ∉ ys

/-- With distinct pool ids, a pool row of a not-yet-visited year cannot
already be selected. -/
theorem group_row_not_selected {pool : List DRow} {m : ℤ} {st : SelSt}
    {ys : List ℤ} {r : DRow} {y : ℤ}
    (hn : (pool.map (fun r => r.canonical_id)).Nodup)
    (hInv : Inv m st) (hwf : selWf pool st ys)
    (hr : r ∈ pool) (hry : r.year_int = some y) (hy : y ∈ ys) :
    r.canonical_id ∉ st.selectedIds := by
  intro hmem
  have hcid : r.canonical_id ∈ cidsOf st.selected := hInv.perm.subset hmem
  obtain ⟨p, hp, hpc⟩ := List.mem_map.mp hcid
  obtain ⟨hppool, y', hy', hy'n⟩ := hwf p hp
  have heq : r = p.1 := nodup_map_inj hn r hr p.1 hppool hpc.symm
  rw [heq, hy'] at hry
  exact hy'n (Option.some.inj hry ▸ hy)

/-- With distinct album keys, a pool row of a not-yet-visited year has
a zero album count among the selected cards. -/
theorem group_row_album_zero {pool : List DRow} {st : SelSt}
    {ys : List ℤ} {r : DRow} {y : ℤ}
    (hkeys : (pool.map effAlbumKey).Nodup)
    (hwf : selWf pool st ys)
    (hr : r ∈ pool) (hry : r.year_int = some y) (hy : y ∈ ys) :
    albumCountIn st.selected (effAlbumKey r) = 0 := by
  by_contra hne
  have hpos : 0 < (st.selected.filter (fun p => effAlbumKey p.1 = effAlbumKey r)).length := by
    unfold albumCountIn at hne
    omega
  obtain ⟨p, hp⟩ := List.exists_mem_of_length_pos hpos
  have hpf := List.mem_filter.mp hp
  have hpkey : effAlbumKey p.1 = effAlbumKey r := by simpa using hpf.2
  obtain ⟨hppool, y', hy', hy'n⟩ := hwf p hpf.1
  have heq : p.1 = r := nodup_map_inj hkeys p.1 hppool r hr hpkey
  rw [heq, hry] at hy'
  exact hy'n (Option.some.inj hy' ▸ hy)

/-- Under the claim's side conditions, every row of a not-yet-visited
year's group satisfies the keep predicate. -/
theorem group_row_keep {pool : List DRow} {m : ℤ} {st : SelSt}
    {ys : List ℤ} {r : DRow} {y : ℤ}
    (hn : (pool.map (fun r => r.canonical_id)).Nodup)
    (hcap : m ≤ 0 ∨ (pool.map effAlbumKey).Nodup)
    (hInv : Inv m st) (hwf : selWf pool st ys)
    (hr : r ∈ pool) (hry : r.year_int = some y) (hy : y ∈ ys) :
    keepPred m st.selectedIds st.albumCounts r := by
  refine ⟨group_row_not_selected hn hInv hwf hr hry hy, fun hm => ?_⟩
  rcases hcap with hcap | hcap
  · omega
  · rw [hInv.album hm, group_row_album_zero hcap hwf hr hry hy]
    omega

/-- Phase-1 coverage: one card is appended per remaining year, in year
order, as long as the limit leaves room. -/
theorem phase1_coverage {pool : List DRow} {m : ℤ} {L : Nat}
    (hn : (pool.map (fun r => r.canonical_id)).Nodup)
    (hcap : m ≤ 0 ∨ (pool.map effAlbumKey).Nodup) :
    ∀ (ys : List ℤ) (st : SelSt),
      Inv m st →
      selWf pool st ys →
      ys.Nodup →
      (∀ y ∈ ys, lookupD st.groups y [] = lookupD (initState pool).groups y []) →
      (∀ y ∈ ys, y ∈ yearsOf pool) →
      st.selected.length + ys.length ≤ L →
      ∃ ext, (phase1 m L ys st).selected = st.selected ++ ext ∧
        ext.map (fun p => p.1.year_int) = ys.map some := by
  intro ys
  induction ys with
  | nil =>
    intro st _ _ _ _ _ _
    exact ⟨[], by simp [phase1], rfl⟩
  | cons y ys' ih =>
    intro st hInv hwf hnd hgrp hsub hlen
    simp only [phase1]
    have hL : ¬ L ≤ st.selected.length := by
      simp only [List.length_cons] at hlen
      omega
    rw [if_neg hL]
    have hyyrs : y ∈ yearsOf pool := hsub y (List.mem_cons_self y ys')
    have hgy : lookupD st.groups y [] = lookupD (initState pool).groups y [] :=
      hgrp y (List.mem_cons_self y ys')
    have hgrows : ∀ r ∈ lookupD st.groups y [], r ∈ pool ∧ r.year_int = some y := by
      rw [hgy]; exact initGroups_rows pool y
    have hgne : lookupD st.groups y [] ≠ [] := by
      rw [hgy]; exact initGroups_nonempty pool y hyyrs
    have hkeep : ∀ r ∈ lookupD st.groups y [],
        keepPred m st.selectedIds st.albumCounts r := by
      intro r hr
      obtain ⟨hrpool, hry⟩ := hgrows r hr
      exact group_row_keep hn hcap hInv hwf hrpool hry (List.mem_cons_self y ys')
    have hprune : pruneRows m st.selectedIds st.albumCounts
        (lookupD st.groups y []) = (lookupD st.groups y [], 0) :=
      pruneRows_id_of_keep m _ _ _ hkeep
    cases hpop : pop_next m st y with
    | mk ro st' =>
      have hpop' := hpop
      simp only [pop_next] at hpop'
      rw [prune_groups_self, hprune] at hpop'
      cases hpm : popMinBy (candidate_rank (prune_unavailable_rows m st y))
          (lookupD st.groups y []) with
      | none => exact absurd (popMinBy_none_iff.mp hpm) hgne
      | some p =>
        obtain ⟨r, rest⟩ := p
        rw [hpm] at hpop'
        have hro : ro = some r := (congrArg Prod.fst hpop').symm
        subst hro
        -- facts about the popped row
        obtain ⟨hkeepr, hrgrp⟩ := pop_some_keep hpop
        obtain ⟨hrpool, hry⟩ := hgrows r hrgrp
        obtain ⟨f1, f2, f3, f4, f5⟩ := pop_fields m st y
        rw [hpop] at f1 f2 f3
        have h1 : r.canonical_id ∉ st'.selectedIds := by rw [f2]; exact hkeepr.1
        have h2 : can_take m st' r = true := by
          apply can_take_of_keep
          rw [f2, f3]
          exact hkeepr
        have hInv' : Inv m st' := by
          have := Inv_pop y hInv
          rw [hpop] at this
          exact this
        have hadd := @add_row_eq m st' r "coverage" h1 h2
        -- the new state after adding
        have hInvA : Inv m (add_row m st' r "coverage") :=
          Inv_add h1 (by rw [f3]; exact hkeepr.2) hInv'
        have hst'sel : st'.selected = st.selected := f1
        have hselA : (add_row m st' r "coverage").selected =
            st.selected ++ [(r, "coverage")] := by
          rw [hadd]
          simp only [hst'sel]
        have hwfA : selWf pool (add_row m st' r "coverage") ys' := by
          intro p hp
          rw [hselA] at hp
          rcases List.mem_append.mp hp with hp' | hp'
          · obtain ⟨hpp, y', hy', hy'n⟩ := hwf p hp'
            exact ⟨hpp, y', hy', fun hc => hy'n (List.mem_cons_of_mem y hc)⟩
          · simp only [List.mem_singleton] at hp'
            subst hp'
            exact ⟨hrpool, y, hry, (List.nodup_cons.mp hnd).1⟩
        have hgrpA : ∀ y' ∈ ys',
            lookupD (add_row m st' r "coverage").groups y' [] =
              lookupD (initState pool).groups y' [] := by
          intro y' hy'
          have hne : y' ≠ y := by
            intro hh
            exact (List.nodup_cons.mp hnd).1 (hh ▸ hy')
          have hga : (add_row m st' r "coverage").groups = st'.groups := by
            rw [hadd]
          rw [hga, pop_groups_other hpop hne]
          exact hgrp y' (List.mem_cons_of_mem y hy')
        have hlenA : (add_row m st' r "coverage").selected.length + ys'.length ≤ L := by
          rw [hselA]
          simp only [List.length_append, List.length_cons, List.length_nil,
            List.length_cons] at hlen ⊢
          omega
        obtain ⟨ext, hext, hexty⟩ := ih (add_row m st' r "coverage") hInvA hwfA
          (List.nodup_cons.mp hnd).2 hgrpA
          (fun y' hy' => hsub y' (List.mem_cons_of_mem y hy')) hlenA
        refine ⟨(r, "coverage") :: ext, ?_, ?_⟩
        · rw [hext, hselA]
          simp
        · simp only [List.map_cons, hexty, hry]

/-- Claim C3.  For a pool with distinct canonical ids spanning
`k = |yearsOf pool|` distinct years, when the target limit admits at
least `k` cards and the album cap cannot exhaust a year (cap disabled,
or all album keys distinct), the first `k` cards selected by
`select_deck` carry exactly the `k` years in ascending order — every
year is covered once before any year receives a second card. -/
theorem select_deck_phase1_year_coverage :
    ∀ (pool : List DRow) (limit m : ℤ),
      (pool.map (fun r => r.canonical_id)).Nodup →
      (m ≤ 0 ∨ (pool.map effAlbumKey).Nodup) →
      (yearsOf pool).length ≤ targetLimit pool limit →
      (((select_deck pool limit m).1.take (yearsOf pool).length).map
        (fun p => p.1.year_int)) = (yearsOf pool).map some := by
  intro pool limit m hn hcap hlen
  by_cases hp : pool = []
  · subst hp
    simp [select_deck, yearsOf, sortBy]
  · obtain ⟨ext, hext, hexty⟩ := phase1_coverage hn hcap (yearsOf pool)
      (initState pool) (Inv_initState pool m)
      (fun p hp => by simp [initState] at hp)
      (yearsOf_nodup pool)
      (fun y _ => rfl)
      (fun y hy => hy)
      (by simpa [initState] using hlen)
    obtain ⟨t, ht⟩ := phase2_extends m (targetLimit pool limit)
      (targetLimit pool limit + pool.length + 1)
      (phase1 m (targetLimit pool limit) (yearsOf pool) (initState pool))
    have hdeck : (select_deck pool limit m).1 =
        (phase2 m (targetLimit pool limit)
          (targetLimit pool limit + pool.length + 1)
          (phase1 m (targetLimit pool limit) (yearsOf pool) (initState pool))).selected := by
      simp only [select_deck, if_neg hp]
    have hextlen : ext.length = (yearsOf pool).length := by
      have h1 := congrArg List.length hexty
      simpa using h1
    rw [hdeck, ht, hext]
    simp only [initState, List.nil_append]
    rw [← hextlen, List.take_left, hexty]

/-- Claim C3, witness: a three-year pool with distinct ids and no cap;
the first three cards carry the years 1990, 1995, 2000. -/
theorem select_deck_phase1_year_coverage_witness :
    (((select_deck
        [⟨"c1", some 1995, 1, 0, 0, "", ""⟩,
         ⟨"c2", some 1990, 2, 0, 0, "", ""⟩,
         ⟨"c3", some 2000, 1, 0, 0, "", ""⟩] 3 0).1.take 3).map
      (fun p => p.1.year_int)) = [some 1990, some 1995, some 2000] := by
  have h := select_deck_phase1_year_coverage
    [⟨"c1", some 1995, 1, 0, 0, "", ""⟩,
     ⟨"c2", some 1990, 2, 0, 0, "", ""⟩,
     ⟨"c3", some 2000, 1, 0, 0, "", ""⟩] 3 0
    (by decide) (Or.inl (by decide)) (by decide)
  have hy : yearsOf
      [⟨"c1", some 1995, 1, 0, 0, "", ""⟩,
       ⟨"c2", some 1990, 2, 0, 0, "", ""⟩,
       ⟨"c3", some 2000, 1, 0, 0, "", ""⟩] = [1990, 1995, 2000] := by decide
  rw [hy] at h
  exact h

theorem prune_blocks_eq (m : ℤ) (st : SelSt) (y : ℤ) :
    (prune_unavailable_rows m st y).blocks =
      st.blocks + (pruneRows m st.selectedIds st.albumCounts
        (lookupD st.groups y [])).2 := rfl

/-- Phase 1 never silently skips a year: if a remaining year ends up
with no card, either the limit was hit or the album-cap counter grew. -/
theorem phase1_uncovered {pool : List DRow} {m : ℤ} {L : Nat}
    (hn : (pool.map (fun r => r.canonical_id)).Nodup) :
    ∀ (ys : List ℤ) (st : SelSt) (y : ℤ),
      Inv m st →
      selWf pool st ys →
      ys.Nodup →
      (∀ y' ∈ ys, lookupD st.groups y' [] = lookupD (initState pool).groups y' []) →
      (∀ y' ∈ ys, y' ∈ yearsOf pool) →
      y ∈ ys →
      (∃ p ∈ (phase1 m L ys st).selected, p.1.year_int = some y) ∨
      L ≤ (phase1 m L ys st).selected.length ∨
      st.blocks < (phase1 m L ys st).blocks := by
  intro ys
  induction ys with
  | nil => intro st y _ _ _ _ _ hy; simp at hy
  | cons y0 ys' ih =>
    intro st y hInv hwf hnd hgrp hsub hy
    simp only [phase1]
    by_cases hL : L ≤ st.selected.length
    · rw [if_pos hL]
      right; left; exact hL
    · rw [if_neg hL]
      have hy0yrs : y0 ∈ yearsOf pool := hsub y0 (List.mem_cons_self y0 ys')
      have hgy0 : lookupD st.groups y0 [] = lookupD (initState pool).groups y0 [] :=
        hgrp y0 (List.mem_cons_self y0 ys')
      have hgrows : ∀ r ∈ lookupD st.groups y0 [],
          r ∈ pool ∧ r.year_int = some y0 := by
        rw [hgy0]; exact initGroups_rows pool y0
      have hgne : lookupD st.groups y0 [] ≠ [] := by
        rw [hgy0]; exact initGroups_nonempty pool y0 hy0yrs
      cases hpop : pop_next m st y0 with
      | mk ro st' =>
        obtain ⟨f1, f2, f3, f4, f5⟩ := pop_fields m st y0
        rw [hpop] at f1 f2 f3
        have hst'sel : st'.selected = st.selected := f1
        have hbpop : st.blocks ≤ st'.blocks := by
          have h := pop_blocks_le m st y0
          rw [hpop] at h
          exact h
        have hInv' : Inv m st' := by
          have := Inv_pop y0 hInv
          rw [hpop] at this
          exact this
        cases ro with
        | some r =>
          dsimp only
          obtain ⟨hkeepr, hrgrp⟩ := pop_some_keep hpop
          obtain ⟨hrpool, hry⟩ := hgrows r hrgrp
          have h1 : r.canonical_id ∉ st'.selectedIds := by rw [f2]; exact hkeepr.1
          have h2 : can_take m st' r = true := by
            apply can_take_of_keep
            rw [f2, f3]
            exact hkeepr
          have hadd := @add_row_eq m st' r "coverage" h1 h2
          have hselA : (add_row m st' r "coverage").selected =
              st.selected ++ [(r, "coverage")] := by
            rw [hadd]
            simp only [hst'sel]
          rcases List.mem_cons.mp hy with hyy | hyy
          · -- y is the year being processed; its card is in the deck
            left
            obtain ⟨t, ht⟩ := phase1_extends m L ys' (add_row m st' r "coverage")
            refine ⟨(r, "coverage"), ?_, by rw [hry, hyy]⟩
            rw [ht, hselA]
            simp
          · -- y comes later: recurse
            have hInvA : Inv m (add_row m st' r "coverage") :=
              Inv_add h1 (by rw [f3]; exact hkeepr.2) hInv'
            have hwfA : selWf pool (add_row m st' r "coverage") ys' := by
              intro p hp
              rw [hselA] at hp
              rcases List.mem_append.mp hp with hp' | hp'
              · obtain ⟨hpp, y', hy', hy'n⟩ := hwf p hp'
                exact ⟨hpp, y', hy', fun hc => hy'n (List.mem_cons_of_mem y0 hc)⟩
              · simp only [List.mem_singleton] at hp'
                subst hp'
                exact ⟨hrpool, y0, hry, (List.nodup_cons.mp hnd).1⟩
            have hgrpA : ∀ y' ∈ ys',
                lookupD (add_row m st' r "coverage").groups y' [] =
                  lookupD (initState pool).groups y' [] := by
              intro y' hy'
              have hne : y' ≠ y0 := fun hh =>
                (List.nodup_cons.mp hnd).1 (hh ▸ hy')
              have hga : (add_row m st' r "coverage").groups = st'.groups := by
                rw [hadd]
              rw [hga, pop_groups_other hpop hne]
              exact hgrp y' (List.mem_cons_of_mem y0 hy')
            have := ih (add_row m st' r "coverage") y hInvA hwfA
              (List.nodup_cons.mp hnd).2 hgrpA
              (fun y' hy' => hsub y' (List.mem_cons_of_mem y0 hy')) hyy
            rcases this with h | h | h
            · left; exact h
            · right; left; exact h
            · right; right
              have hba : (add_row m st' r "coverage").blocks = st'.blocks :=
                add_row_blocks m st' r "coverage"
              omega
        | none =>
          dsimp only
          -- the group for y0 was emptied by pruning
          have hpop' := hpop
          simp only [pop_next] at hpop'
          have hprempty : (pruneRows m st.selectedIds st.albumCounts
              (lookupD st.groups y0 [])).1 = [] := by
            cases hpm : popMinBy (candidate_rank (prune_unavailable_rows m st y0))
                (lookupD (prune_unavailable_rows m st y0).groups y0 []) with
            | none =>
              have := popMinBy_none_iff.mp hpm
              rwa [prune_groups_self] at this
            | some p =>
              obtain ⟨r, rest⟩ := p
              rw [hpm] at hpop'
              exact absurd (congrArg Prod.fst hpop') (by simp)
          have hst' : st' = prune_unavailable_rows m st y0 := by
            cases hpm : popMinBy (candidate_rank (prune_unavailable_rows m st y0))
                (lookupD (prune_unavailable_rows m st y0).groups y0 []) with
            | none =>
              rw [hpm] at hpop'
              exact (congrArg Prod.snd hpop').symm
            | some p =>
              obtain ⟨r, rest⟩ := p
              rw [hpm] at hpop'
              exact absurd (congrArg Prod.fst hpop') (by simp)
          by_cases hb : (pruneRows m st.selectedIds st.albumCounts
              (lookupD st.groups y0 [])).2 = 0
          · -- no blocks: every dropped row was already selected — impossible
            exfalso
            have hall : pruneRows m st.selectedIds st.albumCounts
                (lookupD st.groups y0 []) = ([], 0) :=
              Prod.ext hprempty hb
            obtain ⟨r0, hr0⟩ := List.exists_mem_of_ne_nil _ hgne
            have hins := pruneRows_empty_noblocks m st.selectedIds st.albumCounts
              _ hall r0 hr0
            obtain ⟨hr0pool, hr0y⟩ := hgrows r0 hr0
            exact group_row_not_selected hn hInv hwf hr0pool hr0y
              (List.mem_cons_self y0 ys') hins
          · -- at least one cap block was counted
            have hblt : st.blocks < st'.blocks := by
              rw [hst', prune_blocks_eq]
              omega
            rcases List.mem_cons.mp hy with hyy | hyy
            · right; right
              have := phase1_blocks m L ys' st'
              omega
            · have := ih st' y hInv' (by
                  intro p hp
                  rw [hst'sel] at hp
                  obtain ⟨hpp, y', hy', hy'n⟩ := hwf p hp
                  exact ⟨hpp, y', hy', fun hc => hy'n (List.mem_cons_of_mem y0 hc)⟩)
                (List.nodup_cons.mp hnd).2 (by
                  intro y' hy'
                  have hne : y' ≠ y0 := fun hh =>
                    (List.nodup_cons.mp hnd).1 (hh ▸ hy')
                  rw [pop_groups_other hpop hne]
                  exact hgrp y' (List.mem_cons_of_mem y0 hy'))
                (fun y' hy' => hsub y' (List.mem_cons_of_mem y0 hy')) hyy
              rcases this with h | h | h
              · left; exact h
              · right; left; exact h
              · right; right; omega

/-- The example pool of the cap conflict: two candidates in different
years sharing album key `"X"`. -/
def c2pool : List DRow :=
  [⟨"a", some 1990, 1, 0, 0, "X", ""⟩,
   ⟨"b", some 1991, 1, 0, 0, "X", ""⟩]

/-- Claim C2, counterexample.  With `limit = 2`, `max_per_album = 1`,
phase 1 selects `a` for 1990; the only candidate for 1991 (`b`, same
album) would exceed the cap.  The claim says the cap is relaxed and
`b` is still selected; in fact `b` is dropped — the deck is `["a"]` —
while `album_cap_blocks` is incremented to 1. -/
theorem select_deck_cap_conflict_dropped :
    ((select_deck c2pool 2 1).1.map (fun p => p.1.canonical_id) = ["a"]) ∧
    (select_deck c2pool 2 1).2 = 1 := by
  constructor <;> decide

/-- Claim C2, amended.  When the album cap blocks the only remaining
candidates of a not-yet-covered year during phase 1, the candidate is
dropped and the year is left uncovered (the cap is never relaxed), and
the conflict is surfaced via the `album_cap_blocks` counter: whenever a
year present in the pool ends up uncovered although the deck is below
the target limit, the counter is positive. -/
theorem select_deck_cap_conflict_surfaced :
    ∀ (pool : List DRow) (limit m : ℤ) (y : ℤ),
      (pool.map (fun r => r.canonical_id)).Nodup →
      y ∈ yearsOf pool →
      (select_deck pool limit m).1.length < targetLimit pool limit →
      (∀ p ∈ (select_deck pool limit m).1, p.1.year_int ≠ some y) →
      0 < (select_deck pool limit m).2 := by
  intro pool limit m y hn hy hlen huncov
  have hp : pool ≠ [] := by
    intro hh
    subst hh
    simp [yearsOf, sortBy] at hy
  have hdeck : (select_deck pool limit m) =
      ((phase2 m (targetLimit pool limit)
          (targetLimit pool limit + pool.length + 1)
          (phase1 m (targetLimit pool limit) (yearsOf pool) (initState pool))).selected,
        (phase2 m (targetLimit pool limit)
          (targetLimit pool limit + pool.length + 1)
          (phase1 m (targetLimit pool limit) (yearsOf pool) (initState pool))).blocks) := by
    simp only [select_deck, if_neg hp]
  obtain ⟨t, ht⟩ := phase2_extends m (targetLimit pool limit)
    (targetLimit pool limit + pool.length + 1)
    (phase1 m (targetLimit pool limit) (yearsOf pool) (initState pool))
  have hmain := phase1_uncovered (m := m) (L := targetLimit pool limit) hn
    (yearsOf pool) (initState pool) y (Inv_initState pool m)
    (fun p hp => by simp [initState] at hp)
    (yearsOf_nodup pool) (fun y' _ => rfl) (fun y' hy' => hy') hy
  rcases hmain with ⟨p, hpmem, hpy⟩ | hL | hblk
  · exfalso
    apply huncov p ?_ hpy
    rw [hdeck]
    simp only
    rw [ht]
    exact List.mem_append.mpr (Or.inl hpmem)
  · exfalso
    rw [hdeck] at hlen
    simp only at hlen
    rw [ht] at hlen
    simp only [List.length_append] at hlen
    omega
  · have hb2 := phase2_blocks m (targetLimit pool limit)
      (targetLimit pool limit + pool.length + 1)
      (phase1 m (targetLimit pool limit) (yearsOf pool) (initState pool))
    rw [hdeck]
    simp only
    have hbinit : (initState pool).blocks = 0 := rfl
    omega

/-- Claim C2, witness: the amended theorem applied to the concrete
conflict pool — year 1991 is uncovered below the limit, so the counter
is positive. -/
theorem select_deck_cap_conflict_surfaced_witness :
    0 < (select_deck c2pool 2 1).2 :=
  select_deck_cap_conflict_surfaced c2pool 2 1 1991 (by decide) (by decide)
    (by decide) (by decide)

end Gitster
